import Mathlib

/-!
Verification of the veil-rs hybrid cryptosystem sources against its
specification.

The development shallowly embeds the Rust sources.  Byte streams are lists
of naturals; readers and writers become explicit lists threaded through the
functions.  The external cryptographic primitives (the Keccak/lockstitch
duplex and the prime-order group) are idealized:

* The duplex state is its full operation transcript, a flat list of
  naturals.  Squeezed and keystream words are derived from an injective
  numeric code of the transcript, so two different transcripts never
  collide — the symbolic idealization of a random oracle.  Keystream words
  are multiples of 256, so a genuine byte (a value below 256) whitened by
  the keystream keeps its low eight bits and gains nonzero high bits; this
  makes ciphertext produced under one transcript visibly undecodable under
  any other transcript.
* The prime-order group is the cyclic group of integers modulo the group
  order with the generator mapped to 1; scalar-times-point and point
  addition are multiplication and addition modulo the order.  Canonical
  32-byte encodings are little-endian base-256 digits.

All functions are executable.  Rust functions from the repository are
translated line by line; repository modules absent from the source tree
(keys, sres, blockio, the keyed duplex used by the veil crate) are
modelled from the specification and marked as such in their doc comments.
-/

abbrev Bytes := List Nat

/-- Little-endian binary digits, by fuelled structural recursion so that
the kernel can evaluate it. -/
def bitsAux : Nat → Nat → List Nat
  | 0, _ => []
  | _ + 1, 0 => []
  | fuel + 1, n + 1 => (n + 1) % 2 :: bitsAux fuel ((n + 1) / 2)

/-- Little-endian binary digits of a natural number. -/
def bits (n : Nat) : List Nat := bitsAux n n

theorem ofDigits_bitsAux : ∀ fuel n, n ≤ fuel → Nat.ofDigits 2 (bitsAux fuel n) = n := by
  intro fuel
  induction fuel with
  | zero => intro n h; interval_cases n; simp [bitsAux, Nat.ofDigits]
  | succ f ih =>
    intro n h
    cases n with
    | zero => simp [bitsAux, Nat.ofDigits]
    | succ m =>
      have hle : (m + 1) / 2 ≤ f := by omega
      simp only [bitsAux, Nat.ofDigits_cons, ih _ hle]
      omega

theorem ofDigits_bits (n : Nat) : Nat.ofDigits 2 (bits n) = n :=
  ofDigits_bitsAux n n (le_refl n)

theorem bitsAux_lt : ∀ fuel n, ∀ e ∈ bitsAux fuel n, e < 2 := by
  intro fuel
  induction fuel with
  | zero => intro n e he; simp [bitsAux] at he
  | succ f ih =>
    intro n e he
    cases n with
    | zero => simp [bitsAux] at he
    | succ m =>
      simp only [bitsAux, List.mem_cons] at he
      rcases he with he | he
      · omega
      · exact ih _ e he

/-- Little-endian base-256 digits, by fuelled structural recursion. -/
def bytesAux : Nat → Nat → List Nat
  | 0, _ => []
  | _ + 1, 0 => []
  | fuel + 1, n + 1 => (n + 1) % 256 :: bytesAux fuel ((n + 1) / 256)

/-- Little-endian base-256 digits of a natural number. -/
def bytesOf (n : Nat) : List Nat := bytesAux n n

theorem ofDigits_bytesAux : ∀ fuel n, n ≤ fuel → Nat.ofDigits 256 (bytesAux fuel n) = n := by
  intro fuel
  induction fuel with
  | zero => intro n h; interval_cases n; simp [bytesAux, Nat.ofDigits]
  | succ f ih =>
    intro n h
    cases n with
    | zero => simp [bytesAux, Nat.ofDigits]
    | succ m =>
      have hle : (m + 1) / 256 ≤ f := by omega
      simp only [bytesAux, Nat.ofDigits_cons, ih _ hle]
      omega

theorem ofDigits_bytesOf (n : Nat) : Nat.ofDigits 256 (bytesOf n) = n :=
  ofDigits_bytesAux n n (le_refl n)

theorem bytesAux_lt : ∀ fuel n, ∀ e ∈ bytesAux fuel n, e < 256 := by
  intro fuel
  induction fuel with
  | zero => intro n e he; simp [bytesAux] at he
  | succ f ih =>
    intro n e he
    cases n with
    | zero => simp [bytesAux] at he
    | succ m =>
      simp only [bytesAux, List.mem_cons] at he
      rcases he with he | he
      · omega
      · exact ih _ e he

theorem bytesAux_len : ∀ fuel n k, n < 256 ^ k → (bytesAux fuel n).length ≤ k := by
  intro fuel
  induction fuel with
  | zero => intro n k _; simp [bytesAux]
  | succ f ih =>
    intro n k hk
    cases n with
    | zero => simp [bytesAux]
    | succ m =>
      cases k with
      | zero => simp at hk
      | succ j =>
        have hdiv : (m + 1) / 256 < 256 ^ j := by
          rw [Nat.div_lt_iff_lt_mul (by norm_num)]
          calc m + 1 < 256 ^ (j + 1) := hk
            _ = 256 ^ j * 256 := by ring
        simp only [bytesAux, List.length_cons]
        have := ih ((m + 1) / 256) j hdiv
        omega

/-- Self-delimiting digit code of one transcript entry: its binary digits
followed by the separator digit 2. -/
def frame1 (x : Nat) : List Nat := bits x ++ [2]

/-- Self-delimiting digit code of a transcript. -/
def frame : List Nat → List Nat
  | [] => []
  | x :: t => frame1 x ++ frame t

theorem frame1_ne_nil (x : Nat) : frame1 x ≠ [] := by
  simp [frame1]

theorem frame1_bits (x : Nat) : ∀ e ∈ bits x, e < 2 := by
  intro e he
  exact bitsAux_lt x x e he

theorem frame_lt_four : ∀ l : List Nat, ∀ e ∈ frame l, e < 4 := by
  intro l
  induction l with
  | nil => intro e he; simp [frame] at he
  | cons x t ih =>
    intro e he
    simp only [frame, frame1, List.mem_append] at he
    rcases he with (h | h) | he
    · exact lt_trans (bitsAux_lt x x e h) (by norm_num)
    · simp at h; omega
    · exact ih e he

/-- Splitting a separator-terminated code is unambiguous. -/
theorem sep_split (xs : List Nat) : ∀ ys a b : List Nat,
    (∀ e ∈ xs, e < 2) → (∀ e ∈ ys, e < 2) →
    xs ++ 2 :: a = ys ++ 2 :: b → xs = ys ∧ a = b := by
  induction xs with
  | nil =>
    intro ys a b _ hys h
    cases ys with
    | nil => simp at h; exact ⟨rfl, h⟩
    | cons y t =>
      simp at h
      have : y = 2 := h.1.symm
      have := hys y (by simp)
      omega
  | cons x xt ih =>
    intro ys a b hxs hys h
    cases ys with
    | nil =>
      simp at h
      have : x = 2 := h.1
      have := hxs x (by simp)
      omega
    | cons y t =>
      simp at h
      obtain ⟨hxy, hrest⟩ := h
      obtain ⟨h1, h2⟩ := ih t a b (fun e he => hxs e (by simp [he]))
        (fun e he => hys e (by simp [he])) hrest
      exact ⟨by simp [hxy, h1], h2⟩

theorem frame_inj : ∀ l1 l2 : List Nat, frame l1 = frame l2 → l1 = l2 := by
  intro l1
  induction l1 with
  | nil =>
    intro l2 h
    cases l2 with
    | nil => rfl
    | cons y t =>
      exfalso
      simp only [frame] at h
      have : frame1 y ++ frame t ≠ [] := by
        intro hc
        exact frame1_ne_nil y (List.append_eq_nil.mp hc).1
      exact this h.symm
  | cons x t ih =>
    intro l2 h
    cases l2 with
    | nil =>
      exfalso
      simp only [frame] at h
      have : frame1 x ++ frame t ≠ [] := by
        intro hc
        exact frame1_ne_nil x (List.append_eq_nil.mp hc).1
      exact this h
    | cons y u =>
      simp only [frame, frame1] at h
      rw [List.append_assoc, List.append_assoc] at h
      simp only [List.singleton_append] at h
      obtain ⟨hd, htl⟩ := sep_split (bits x) (bits y)
        (frame t) (frame u) (frame1_bits x) (frame1_bits y) h
      have hx : x = y := by
        have := congrArg (Nat.ofDigits 2) hd
        rwa [ofDigits_bits, ofDigits_bits] at this
      rw [hx, ih u htl]

/-- The duplex state: the full transcript of operations applied to it. -/
structure Duplex where
  tr : List Nat
deriving DecidableEq

/-- Injective numeric code of a duplex state. -/
def dcode (d : Duplex) : Nat := Nat.ofDigits 4 (frame d.tr ++ [3])

theorem dcode_inj {d1 d2 : Duplex} (h : dcode d1 = dcode d2) : d1 = d2 := by
  have hd : ∀ d : Duplex, Nat.digits 4 (dcode d) = frame d.tr ++ [3] := by
    intro d
    apply Nat.digits_ofDigits 4 (by norm_num)
    · intro e he
      rcases List.mem_append.mp he with h | h
      · exact frame_lt_four d.tr e h
      · simp at h; omega
    · intro _
      simp
  have h2 : frame d1.tr ++ [3] = frame d2.tr ++ [3] := by
    rw [← hd d1, ← hd d2, h]
  have h3 := List.append_cancel_right h2
  have h4 := frame_inj _ _ h3
  cases d1; cases d2
  simpa using h4

/-- Keystream word of a duplex state: a nonzero multiple of 256 injectively
determined by the transcript. -/
def dsq (d : Duplex) : Nat := 256 * (1 + dcode d)

theorem dsq_inj {d1 d2 : Duplex} (h : d1 ≠ d2) : dsq d1 ≠ dsq d2 := by
  intro hc
  exact h (dcode_inj (by unfold dsq at hc; omega))

/-- Record one operation (opcode and length-prefixed payload) on the
transcript. -/
def dpush (d : Duplex) (op : Nat) (data : List Nat) : Duplex :=
  ⟨d.tr ++ op :: data.length :: data⟩

theorem dpush_inj_payload {d : Duplex} {op : Nat} {a b : List Nat}
    (h : dpush d op a = dpush d op b) : a = b := by
  simp only [dpush, Duplex.mk.injEq] at h
  have := List.append_cancel_left h
  simp at this
  exact this.2

theorem dpush_len {d : Duplex} {op : Nat} {a : List Nat} :
    (dpush d op a).tr.length = d.tr.length + 2 + a.length := by
  simp [dpush]
  omega

/-- Two parallel duplex runs that have absorbed transcripts of equal length
but different content. -/
def DuplexDiff (d1 d2 : Duplex) : Prop :=
  d1.tr.length = d2.tr.length ∧ d1 ≠ d2

theorem DuplexDiff.push {d1 d2 : Duplex} (h : DuplexDiff d1 d2) (op : Nat)
    {a b : List Nat} (hl : a.length = b.length) :
    DuplexDiff (dpush d1 op a) (dpush d2 op b) := by
  refine ⟨by rw [dpush_len, dpush_len, h.1, hl], ?_⟩
  intro hc
  simp only [dpush, Duplex.mk.injEq] at hc
  have := List.append_inj_left hc (by rw [h.1])
  exact h.2 (by cases d1; cases d2; simp_all)

theorem DuplexDiff.intro {d : Duplex} (op : Nat) {a b : List Nat}
    (hl : a.length = b.length) (hne : a ≠ b) :
    DuplexDiff (dpush d op a) (dpush d op b) := by
  refine ⟨by rw [dpush_len, dpush_len, hl], ?_⟩
  intro hc
  exact hne (dpush_inj_payload hc)

theorem DuplexDiff.dsq_ne {d1 d2 : Duplex} (h : DuplexDiff d1 d2) :
    dsq d1 ≠ dsq d2 := dsq_inj h.2

/-! ## Duplex operations

The operations mirror the duplex API of src/src/duplex.rs and the keyed
duplex used by src/veil/src/mres.rs (the latter file is present, its
duplex module is not; its operations are modelled from the specification,
section 4.1).  Encryption whitens each byte with the keystream word of the
current state and then absorbs the plaintext, so that the encrypting and
the decrypting side evolve identically exactly when they process matching
data. -/

/-- Constructor new(domain): fresh transcript with the domain string
absorbed. -/
def newDuplex (domain : Bytes) : Duplex := dpush ⟨[]⟩ 0 domain

/-- absorb(data): append data to the transcript. -/
def absorb (d : Duplex) (data : Bytes) : Duplex := dpush d 1 data

/-- squeeze(n): n pseudorandom words determined by the absorbed history. -/
def squeeze (d : Duplex) (n : Nat) : Bytes × Duplex :=
  (List.replicate n (dsq d), dpush d 2 [n])

/-- encrypt(pt): stream-cipher the plaintext with the keystream of the
current state. -/
def duplexEnc (d : Duplex) (pt : Bytes) : Bytes × Duplex :=
  (pt.map (fun b => b ^^^ dsq d), dpush d 3 pt)

/-- decrypt(ct): the inverse of duplexEnc under a matching state. -/
def duplexDec (d : Duplex) (ct : Bytes) : Bytes × Duplex :=
  (ct.map (fun b => b ^^^ dsq d), dpush d 3 (ct.map (fun b => b ^^^ dsq d)))

/-- The length of an authentication tag in bytes (src/src/duplex.rs). -/
def TAG_LEN : Nat := 16

/-- The 16-byte authentication tag of a state. -/
def tagOf (d : Duplex) : Bytes := dsq d :: List.replicate (TAG_LEN - 1) 0

theorem tagOf_length (d : Duplex) : (tagOf d).length = TAG_LEN := by
  simp [tagOf, TAG_LEN]

/-- seal_mut(pt): encrypt and append a TAG_LEN-byte authentication tag. -/
def seal_mut (d : Duplex) (pt : Bytes) : Bytes × Duplex :=
  let (ct, d1) := duplexEnc d pt
  (ct ++ tagOf d1, d1)

/-- unseal_mut(ct with tag): decrypt and check the tag; None on mismatch. -/
def unseal_mut (d : Duplex) (ctag : Bytes) : Option Bytes × Duplex :=
  let ct := ctag.take (ctag.length - TAG_LEN)
  let (pt, d1) := duplexDec d ct
  (if ctag.drop (ctag.length - TAG_LEN) = tagOf d1 then some pt else none, d1)

/-- into_keyed(): promote an unkeyed duplex by squeezing a key. -/
def into_keyed (d : Duplex) : Duplex := dpush d 4 []

/-- Keying with shared-secret material (spec section 4.4, steps 3 and 5). -/
def keyWith (d : Duplex) (k : Bytes) : Duplex := dpush d 5 k

/-- ratchet(): irreversibly evolve the state (src/src/mres.rs). -/
def ratchet (d : Duplex) : Duplex := dpush d 6 []

theorem xor_cancel (a k : Nat) : (a ^^^ k) ^^^ k = a := by
  rw [Nat.xor_assoc, Nat.xor_self, Nat.xor_zero]

theorem duplexDec_enc (d : Duplex) (pt : Bytes) :
    duplexDec d (duplexEnc d pt).1 = (pt, (duplexEnc d pt).2) := by
  simp only [duplexEnc, duplexDec, List.map_map]
  have h : ∀ l : Bytes, l.map ((fun b => b ^^^ dsq d) ∘ fun b => b ^^^ dsq d) = l := by
    intro l
    have : ((fun b => b ^^^ dsq d) ∘ fun b => b ^^^ dsq d) = id := by
      funext a; simp [Function.comp, xor_cancel]
    rw [this, List.map_id]
  rw [h pt]

theorem seal_length (d : Duplex) (pt : Bytes) :
    ((seal_mut d pt).1).length = pt.length + TAG_LEN := by
  simp [seal_mut, duplexEnc, tagOf, TAG_LEN]

theorem unseal_seal (d : Duplex) (pt : Bytes) :
    unseal_mut d (seal_mut d pt).1 = (some pt, (seal_mut d pt).2) := by
  have hlen : ((seal_mut d pt).1).length - TAG_LEN = pt.length := by
    rw [seal_length]; omega
  have hct : (seal_mut d pt).1.take (pt.length) = (duplexEnc d pt).1 := by
    simp only [seal_mut]
    rw [List.take_append_of_le_length (by simp [duplexEnc])]
    simp [duplexEnc]
  have htag : (seal_mut d pt).1.drop (pt.length) = tagOf (duplexEnc d pt).2 := by
    simp only [seal_mut]
    rw [List.drop_append_of_le_length (by simp [duplexEnc])]
    simp [duplexEnc]
  simp only [unseal_mut, hlen, hct, htag]
  have hd := duplexDec_enc d pt
  simp only [seal_mut]
  rw [hd]
  simp

/-! ## The group and canonical encodings

The prime-order group is idealized as the integers modulo the group order
with generator 1.  The order constant is ristretto255 group order; the
veil crate uses the jq255e group instead, whose order plays the identical
role — no theorem below depends on the numeric value of the order, only on
it being positive and smaller than 256 to the 32. -/

/-- The order of the prime-order group. -/
def GroupOrder : Nat := 2 ^ 252 + 27742317777372353535851937790883648493

instance : NeZero GroupOrder := ⟨by decide⟩

instance : Fact (1 < GroupOrder) := ⟨by unfold GroupOrder; norm_num⟩

/-- A scalar: an element of the scalar field. -/
abbrev Scalar := ZMod GroupOrder

/-- A point of the prime-order group, identified with its discrete log. -/
abbrev Point := ZMod GroupOrder

/-- The fixed generator, mapped to 1 in the idealized group. -/
def mulgen (s : Scalar) : Point := s

/-- Scalar-times-point in the idealized group. -/
def smul (s : Scalar) (q : Point) : Point := s * q

def POINT_LEN : Nat := 32

def SCALAR_LEN : Nat := 32

theorem GroupOrder_lt : GroupOrder < 256 ^ 32 := by
  have h1 : GroupOrder < 2 ^ 253 := by decide
  have h2 : (256 : Nat) ^ 32 = 2 ^ 256 := by norm_num
  have h3 : (2 : Nat) ^ 253 ≤ 2 ^ 256 := Nat.pow_le_pow_right (by norm_num) (by norm_num)
  omega

/-- Little-endian base-256 canonical 32-byte encoding of a value below
256 to the 32. -/
def encode32 (v : Nat) : Bytes :=
  bytesOf v ++ List.replicate (32 - (bytesOf v).length) 0

theorem encode32_length {v : Nat} (h : v < 256 ^ 32) : (encode32 v).length = 32 := by
  have := bytesAux_len v v 32 h
  simp only [encode32, List.length_append, List.length_replicate, bytesOf]
  omega

theorem encode32_lt (v : Nat) : ∀ b ∈ encode32 v, b < 256 := by
  intro b hb
  rcases List.mem_append.mp hb with h | h
  · exact bytesAux_lt v v b h
  · have := List.eq_of_mem_replicate h
    omega

theorem ofDigits_replicate_zero (b n : Nat) :
    Nat.ofDigits b (List.replicate n 0) = 0 := by
  induction n with
  | zero => simp [Nat.ofDigits]
  | succ k ih => simp [List.replicate_succ, Nat.ofDigits, ih]

theorem ofDigits_encode32 (v : Nat) : Nat.ofDigits 256 (encode32 v) = v := by
  unfold encode32
  rw [show (Nat.ofDigits 256 (bytesOf v ++
      List.replicate (32 - (bytesOf v).length) 0) : Nat) =
      Nat.ofDigits 256 (bytesOf v) + (256 : Nat) ^ (bytesOf v).length *
      Nat.ofDigits 256 (List.replicate (32 - (bytesOf v).length) 0) from by
    exact_mod_cast Nat.ofDigits_append]
  rw [ofDigits_bytesOf, ofDigits_replicate_zero]
  omega

theorem encode32_inj {v w : Nat} (h : encode32 v = encode32 w) : v = w := by
  have := congrArg (Nat.ofDigits 256) h
  rwa [ofDigits_encode32, ofDigits_encode32] at this

/-- Canonical encoding of a scalar. -/
def encodeScalar (s : Scalar) : Bytes := encode32 s.val

/-- Canonical encoding of a point. -/
def encodePoint (q : Point) : Bytes := encode32 q.val

theorem encodeScalar_length (s : Scalar) : (encodeScalar s).length = 32 :=
  encode32_length (lt_trans (ZMod.val_lt s) GroupOrder_lt)

theorem encodePoint_length (q : Point) : (encodePoint q).length = 32 :=
  encode32_length (lt_trans (ZMod.val_lt q) GroupOrder_lt)

theorem encodeScalar_inj {s t : Scalar} (h : encodeScalar s = encodeScalar t) :
    s = t := ZMod.val_injective _ (encode32_inj h)

theorem encodePoint_inj {q r : Point} (h : encodePoint q = encodePoint r) :
    q = r := ZMod.val_injective _ (encode32_inj h)

/-- Little-endian byte interpretation, the inverse of encode32. -/
def decodeNat (bs : Bytes) : Nat := Nat.ofDigits 256 bs

/-- Scalar decoding with the canonical-form check of the curve library
(values at or above the group order are rejected, zero is accepted). -/
def decodeScalar (bs : Bytes) : Option Scalar :=
  if bs.length = 32 ∧ bs.all (· < 256) ∧ decodeNat bs < GroupOrder then
    some ((decodeNat bs : Nat) : Scalar)
  else none

/-- Point decoding: canonical-form check plus identity rejection
(src/src/ecc.rs from_canonical_bytes and the specification, section 2). -/
def decodePoint (bs : Bytes) : Option Point :=
  if bs.length = 32 ∧ bs.all (· < 256) ∧ decodeNat bs < GroupOrder ∧
      decodeNat bs ≠ 0 then
    some ((decodeNat bs : Nat) : Point)
  else none

theorem decodeScalar_encode (s : Scalar) : decodeScalar (encodeScalar s) = some s := by
  unfold decodeScalar
  rw [if_pos]
  · simp [encodeScalar, decodeNat, ofDigits_encode32, ZMod.natCast_val, ZMod.cast_id]
  · refine ⟨encodeScalar_length s, ?_, ?_⟩
    · rw [List.all_eq_true]
      intro b hb
      simpa using encode32_lt _ b hb
    · simp [encodeScalar, decodeNat, ofDigits_encode32, ZMod.val_lt]

theorem decodePoint_encode {q : Point} (hq : q ≠ 0) :
    decodePoint (encodePoint q) = some q := by
  unfold decodePoint
  rw [if_pos]
  · simp [encodePoint, decodeNat, ofDigits_encode32, ZMod.natCast_val, ZMod.cast_id]
  · refine ⟨encodePoint_length q, ?_, ?_, ?_⟩
    · rw [List.all_eq_true]
      intro b hb
      simpa using encode32_lt _ b hb
    · simp [encodePoint, decodeNat, ofDigits_encode32, ZMod.val_lt]
    · simp only [encodePoint, decodeNat, ofDigits_encode32]
      intro hc
      exact hq (by rwa [ZMod.val_eq_zero] at hc)

/-! ## Whitening and tampering facts

A keystream word is a nonzero multiple of 256.  A genuine byte whitened by
one keystream word and unwhitened by a different one keeps nonzero high
bits, so it can never pass a canonical-byte check.  A single-bit flip of a
wire value toggles exactly the corresponding bit of the underlying byte. -/

theorem mul256_xor (a b : Nat) : (256 * a) ^^^ (256 * b) = 256 * (a ^^^ b) := by
  apply Nat.eq_of_testBit_eq
  intro j
  have h256 : (256 : Nat) = 2 ^ 8 := by norm_num
  rw [Nat.testBit_xor, h256, Nat.testBit_mul_pow_two, Nat.testBit_mul_pow_two,
    Nat.testBit_mul_pow_two, Nat.testBit_xor]
  rcases Nat.lt_or_ge j 8 with hj | hj
  · simp [Nat.not_le_of_lt hj]
  · simp [hj]

theorem xor_mul256_ge {x c : Nat} (hx : x < 256) (hc : c ≠ 0) :
    256 ≤ x ^^^ (256 * c) := by
  obtain ⟨i, hi⟩ := Nat.ne_zero_implies_bit_true hc
  have h1 : (x ^^^ 256 * c).testBit (i + 8) = true := by
    rw [Nat.testBit_xor]
    have hx8 : x.testBit (i + 8) = false := by
      apply Nat.testBit_lt_two_pow
      calc x < 256 := hx
        _ = 2 ^ 8 := by norm_num
        _ ≤ 2 ^ (i + 8) := Nat.pow_le_pow_right (by norm_num) (by omega)
    have hc8 : (256 * c).testBit (i + 8) = true := by
      have h256 : (256 : Nat) = 2 ^ 8 := by norm_num
      rw [h256, Nat.testBit_mul_pow_two]
      simp [hi]
    simp [hx8, hc8]
  calc (256 : Nat) = 2 ^ 8 := by norm_num
    _ ≤ 2 ^ (i + 8) := Nat.pow_le_pow_right (by norm_num) (by omega)
    _ ≤ _ := Nat.testBit_implies_ge h1

/-- A byte whitened under one state and unwhitened under a different state
is no longer a byte. -/
theorem cross_whiten_ge {x : Nat} (hx : x < 256) {d1 d2 : Duplex}
    (h : d1 ≠ d2) : 256 ≤ (x ^^^ dsq d1) ^^^ dsq d2 := by
  rw [Nat.xor_assoc]
  unfold dsq
  rw [mul256_xor]
  refine xor_mul256_ge hx ?_
  intro hc
  have h0 : 1 + dcode d1 = 1 + dcode d2 := by
    have := Nat.xor_eq_zero.mp hc
    omega
  exact h (dcode_inj (by omega))

theorem flip_lt {x : Nat} (hx : x < 256) {j : Nat} (hj : j < 8) :
    x ^^^ 2 ^ j < 256 := by
  have h1 : x < 2 ^ 8 := by norm_num; omega
  have h2 : 2 ^ j < 2 ^ 8 := Nat.pow_lt_pow_right (by norm_num) hj
  have := Nat.xor_lt_two_pow h1 h2
  omega

theorem flip_ne (x j : Nat) : x ^^^ 2 ^ j ≠ x := by
  intro hc
  have h3 : (x ^^^ 2 ^ j) ^^^ x = x ^^^ x := by rw [hc]
  rw [Nat.xor_comm x (2 ^ j), Nat.xor_assoc, Nat.xor_self, Nat.xor_zero] at h3
  have h5 : 0 < (2 : Nat) ^ j := Nat.two_pow_pos j
  omega

/-! ## Scalar derivation functions (src/src/scaldf.rs)

Embedded from source.  Key ids are lists of character codes; the delimiter
is the slash, code 47.  The Rust split semantics are mirrored exactly: a
string with n separators splits into n plus 1 pieces, so the empty string
splits into one empty piece. -/

/-- The domain string veil.scaldf.root as bytes. -/
def scaldfRootDomain : Bytes :=
  [118, 101, 105, 108, 46, 115, 99, 97, 108, 100, 102, 46, 114, 111, 111, 116]

/-- The domain string veil.scaldf.label as bytes. -/
def scaldfLabelDomain : Bytes :=
  [118, 101, 105, 108, 46, 115, 99, 97, 108, 100, 102, 46, 108, 97, 98, 101, 108]

/-- KEY_ID_DELIM, the slash character. -/
def KEY_ID_DELIM : Nat := 47

/-- Rust str::split on the delimiter: n separators yield n plus 1 pieces. -/
def splitOnDelim (l : List Nat) : List (List Nat) :=
  l.foldr
    (fun c acc =>
      match acc with
      | [] => [[c]]
      | h :: t => if c = KEY_ID_DELIM then [] :: h :: t else (c :: h) :: t)
    [[]]

/-- Rust str::trim_matches on the delimiter: strip leading and trailing
delimiter characters. -/
def trimDelim (l : List Nat) : List Nat :=
  ((l.dropWhile (· = KEY_ID_DELIM)).reverse.dropWhile (· = KEY_ID_DELIM)).reverse

/-- squeeze_scalar from src/src/duplex.rs: squeeze 64 bytes, reduce modulo
the group order.  The source loops squeezing until the reduced value is
nonzero; the loop is collapsed to a single conditional fallback that
preserves its contract (the result is a nonzero scalar deterministically
derived from the state). -/
def squeeze_scalar (d : Duplex) : Scalar × Duplex :=
  let (bs, d1) := squeeze d 64
  let v : Scalar := ((decodeNat bs : Nat) : Scalar)
  (if v = 0 then 1 else v, d1)

theorem squeeze_scalar_ne_zero (d : Duplex) : (squeeze_scalar d).1 ≠ 0 := by
  unfold squeeze_scalar
  simp only
  by_cases h : ((decodeNat (squeeze d 64).1 : Nat) : Scalar) = 0
  · rw [if_pos h]
    exact one_ne_zero
  · rw [if_neg h]
    exact h

/-- The per-label offset: a fresh label duplex, absorb the label, squeeze a
scalar (the fold body of derive_scalar in src/src/scaldf.rs). -/
def label_offset (label : Bytes) : Scalar :=
  (squeeze_scalar (absorb (newDuplex scaldfLabelDomain) label)).1

/-- derive_root from src/src/scaldf.rs. -/
def derive_root (r : Bytes) : Scalar :=
  (squeeze_scalar (absorb (newDuplex scaldfRootDomain) r)).1

/-- derive_scalar from src/src/scaldf.rs: trim the key id, split it on the
delimiter, and fold the per-label offsets onto the starting scalar. -/
def derive_scalar (d : Scalar) (key_id : List Nat) : Scalar :=
  (splitOnDelim (trimDelim key_id)).foldl (fun acc label => acc + label_offset label) d

/-- derive_point from src/src/scaldf.rs: add the generator times the scalar
derivation of zero. -/
def derive_point (q : Point) (key_id : List Nat) : Point :=
  q + mulgen (derive_scalar 0 key_id)

theorem foldl_add_shift (f : List Nat → Scalar) :
    ∀ (ls : List (List Nat)) (a b : Scalar),
    ls.foldl (fun acc l => acc + f l) (a + b) =
      a + ls.foldl (fun acc l => acc + f l) b := by
  intro ls
  induction ls with
  | nil => intro a b; simp
  | cons h t ih =>
    intro a b
    simp only [List.foldl_cons]
    rw [add_assoc, ih]

theorem derive_scalar_split (d : Scalar) (key_id : List Nat) :
    derive_scalar d key_id = d + derive_scalar 0 key_id := by
  unfold derive_scalar
  have h := foldl_add_shift label_offset (splitOnDelim (trimDelim key_id)) d 0
  rw [add_zero] at h
  exact h

/-- C6: hierarchical derivation commutes with the generator: deriving the
point of a scalar equals the point of the derived scalar, for every scalar
and every key id (spec sections 4.2 and 8). -/
theorem C6_derive_point_matches_derive_scalar (d : Scalar) (key_id : List Nat) :
    derive_point (mulgen d) key_id = mulgen (derive_scalar d key_id) := by
  unfold derive_point mulgen
  rw [derive_scalar_split d key_id]

/-- All-delimiter key ids trim to the empty list. -/
theorem trimDelim_all_delim {key_id : List Nat}
    (h : ∀ c ∈ key_id, c = KEY_ID_DELIM) : trimDelim key_id = [] := by
  unfold trimDelim
  have h1 : key_id.dropWhile (· = KEY_ID_DELIM) = [] := by
    rw [List.dropWhile_eq_nil_iff]
    intro x hx
    simp [h x hx]
  rw [h1]
  simp

/-- C5 amended: an empty or all-delimiter key id does not give the identity
derivation: the Rust split of the trimmed empty string yields one empty
label, so derive_scalar adds the (nonzero) offset of the empty label, and
derive_point adds that offset times the generator. -/
theorem C5_empty_key_id_adds_empty_label_offset (d : Scalar) (q : Point)
    (key_id : List Nat) (h : ∀ c ∈ key_id, c = KEY_ID_DELIM) :
    derive_scalar d key_id = d + label_offset [] ∧
    label_offset [] ≠ 0 ∧
    derive_scalar d key_id ≠ d ∧
    derive_point q key_id = q + mulgen (label_offset []) ∧
    derive_point q key_id ≠ q := by
  have hsplit : splitOnDelim (trimDelim key_id) = [[]] := by
    rw [trimDelim_all_delim h]
    rfl
  have hoff : label_offset [] ≠ 0 := squeeze_scalar_ne_zero _
  have hds : derive_scalar d key_id = d + label_offset [] := by
    unfold derive_scalar
    rw [hsplit]
    simp
  have hds0 : derive_scalar 0 key_id = label_offset [] := by
    unfold derive_scalar
    rw [hsplit]
    simp
  refine ⟨hds, hoff, ?_, ?_, ?_⟩
  · rw [hds]
    intro hc
    exact hoff (by
      have := congrArg (fun z => z - d) hc
      simpa using this)
  · unfold derive_point
    rw [hds0]
  · unfold derive_point
    rw [hds0]
    intro hc
    exact hoff (by
      have := congrArg (fun z => z - q) hc
      simpa [mulgen] using this)

/-- Witness for the amended C5 at a concrete input. -/
theorem C5_witness :
    (∀ c ∈ ([] : List Nat), c = KEY_ID_DELIM) ∧
    derive_scalar 0 [] ≠ 0 := by
  refine ⟨by simp, ?_⟩
  exact (C5_empty_key_id_adds_empty_label_offset 0 0 [] (by simp)).2.2.1

/-- C5 counterexample: the claim says the empty key id yields the identity
derivation; at scalar zero the code returns a nonzero scalar instead. -/
theorem C5_counterexample : ¬ (derive_scalar 0 [] = 0 ∧ derive_point 1 [] = 1) := by
  intro hc
  have h := (C5_empty_key_id_adds_empty_label_offset 0 1 [] (by simp)).2.2.1
  exact h (by simpa using hc.1)

/-! ## Schnorr signatures (src/veil/src/schnorr.rs)

Embedded from source.  The lockstitch protocol is the ideal duplex above
(mix is absorb, derive is squeeze, encrypt and decrypt are the whitening
cipher).  The hedged commitment scalar is passed as a parameter: the
source derives it on a clone from the private key and fresh randomness,
so it reaches sign_protocol as an arbitrary canonical scalar. -/

namespace Schnorr

/-- SIGNATURE_LEN, the length of a signature in bytes. -/
def SIGNATURE_LEN : Nat := POINT_LEN + SCALAR_LEN

/-- The domain string veil.schnorr as bytes. -/
def schnorrDomain : Bytes :=
  [118, 101, 105, 108, 46, 115, 99, 104, 110, 111, 114, 114]

/-- sign_protocol: encrypt the commitment point, derive the challenge,
encrypt the proof scalar s = d * r + k; the signature is the two encrypted
encodings.  Returns the signature and the evolved protocol state. -/
def sign_protocol (p : Duplex) (k : Scalar) (d : Scalar) : Bytes × Duplex :=
  let sig_i := encodePoint (mulgen k)
  let (ct_i, p1) := duplexEnc p sig_i
  let (rb, p2) := squeeze p1 16
  let r : Scalar := ((decodeNat rb : Nat) : Scalar)
  let s := d * r + k
  let (ct_s, p3) := duplexEnc p2 (encodeScalar s)
  (ct_i ++ ct_s, p3)

/-- verify_protocol: decrypt the commitment bytes without decoding them,
re-derive the challenge, decrypt and decode the proof scalar, and compare
the encoding of s times G minus r times Q against the commitment bytes. -/
def verify_protocol (p : Duplex) (q : Point) (sig : Bytes) :
    Option Unit × Duplex :=
  let ct_i := sig.take POINT_LEN
  let ct_s := sig.drop POINT_LEN
  let (i, p1) := duplexDec p ct_i
  let (rb, p2) := squeeze p1 16
  let r_p : Nat := decodeNat rb
  let (sb, p3) := duplexDec p2 ct_s
  match decodeScalar sb with
  | none => (none, p3)
  | some s =>
    (if encodePoint (mulgen s - (r_p : Scalar) * q) = i then some () else none, p3)

/-- sign: fresh veil.schnorr protocol, mix the signer public key, mix the
message stream, then sign_protocol. -/
def sign (d : Scalar) (k : Scalar) (message : Bytes) : Bytes :=
  let p := absorb (absorb (newDuplex schnorrDomain) (encodePoint (mulgen d))) message
  (sign_protocol p k d).1

/-- verify: fresh veil.schnorr protocol, mix the signer public key, mix the
message stream, then verify_protocol. -/
def verify (q : Point) (message : Bytes) (sig : Bytes) : Option Unit :=
  let p := absorb (absorb (newDuplex schnorrDomain) (encodePoint q)) message
  (verify_protocol p q sig).1

theorem whiten_length (d : Duplex) (l : Bytes) :
    (l.map (fun b => b ^^^ dsq d)).length = l.length := by
  simp

theorem unwhiten_whiten (ks : Nat) (l : Bytes) :
    (l.map (fun b => b ^^^ ks)).map (fun b => b ^^^ ks) = l := by
  rw [List.map_map]
  have h : ((fun b => b ^^^ ks) ∘ fun b => b ^^^ ks) = id := by
    funext a
    simp [Function.comp, xor_cancel]
  rw [h, List.map_id]

/-- Shortcuts for splitting a signature at the point length. -/
theorem take_plen {a : Bytes} (b : Bytes) (h : a.length = POINT_LEN) :
    (a ++ b).take POINT_LEN = a := by
  rw [← h, List.take_left]

theorem drop_plen {a : Bytes} (b : Bytes) (h : a.length = POINT_LEN) :
    (a ++ b).drop POINT_LEN = b := by
  rw [← h, List.drop_left]

/-- Successful verification of a genuine signature, at the protocol level:
verify_protocol inverts sign_protocol for every starting state, commitment
scalar, and key pair. -/
theorem verify_protocol_sign_protocol (p : Duplex) (k d : Scalar) :
    (verify_protocol p (mulgen d) (sign_protocol p k d).1).1 = some () := by
  set sig_i := encodePoint (mulgen k) with hsigi
  set ct_i := sig_i.map (fun b => b ^^^ dsq p) with hcti
  set p1 := dpush p 3 sig_i with hp1
  set rb := List.replicate 16 (dsq p1) with hrb
  set p2 := dpush p1 2 [16] with hp2
  set r : Scalar := ((decodeNat rb : Nat) : Scalar) with hr
  set s := d * r + k with hs
  set es := encodeScalar s with hes
  set ct_s := es.map (fun b => b ^^^ dsq p2) with hcts
  have hsig : (sign_protocol p k d).1 = ct_i ++ ct_s := rfl
  have hlen : ct_i.length = POINT_LEN := by
    rw [hcti, whiten_length, hsigi, encodePoint_length]
    rfl
  have hdec1 : duplexDec p ct_i = (sig_i, p1) := duplexDec_enc p sig_i
  have hdec2 : duplexDec p2 ct_s = (es, dpush p2 3 es) := duplexDec_enc p2 es
  rw [hsig]
  unfold verify_protocol
  simp only [take_plen ct_s hlen, drop_plen ct_s hlen, hdec1, squeeze, hdec2,
    hes, decodeScalar_encode]
  rw [← hrb, ← hr]
  have harg : mulgen s - r * mulgen d = mulgen k := by
    unfold mulgen
    rw [hs]
    ring
  rw [harg, ← hsigi, if_pos rfl]

/-- C3 success direction at the streaming level. -/
theorem verify_sign (d k : Scalar) (msg : Bytes) :
    verify (mulgen d) msg (sign d k msg) = some () := by
  unfold sign verify
  exact verify_protocol_sign_protocol _ k d

end Schnorr

/-! ## Bit flips on wire data -/

/-- Flip bit j of the byte at position n of a wire byte string. -/
def flipAt (l : Bytes) (n j : Nat) : Bytes := l.set n (l.getD n 0 ^^^ 2 ^ j)

theorem flipAt_length (l : Bytes) (n j : Nat) : (flipAt l n j).length = l.length :=
  List.length_set l n _

theorem flipAt_ne {l : Bytes} {n : Nat} (h : n < l.length) (j : Nat) :
    flipAt l n j ≠ l := by
  intro hc
  have hg := congrArg (fun t => t.getD n 0) hc
  simp only [flipAt] at hg
  rw [List.getD_eq_getElem _ _ (by simpa using h), List.getElem_set_self] at hg
  rw [List.getD_eq_getElem _ _ h] at hg
  exact flip_ne _ _ hg

theorem flipAt_append_left {a : Bytes} (b : Bytes) {n : Nat} (h : n < a.length)
    (j : Nat) : flipAt (a ++ b) n j = flipAt a n j ++ b := by
  unfold flipAt
  rw [List.getD_append a b 0 n h, List.set_append_left _ _ h]

theorem flipAt_append_right {a : Bytes} (b : Bytes) {n : Nat} (h : a.length ≤ n)
    (j : Nat) : flipAt (a ++ b) n j = a ++ flipAt b (n - a.length) j := by
  unfold flipAt
  rw [List.getD_append_right a b 0 n h, List.set_append_right _ _ h]

theorem xor_rotate (a k f : Nat) : ((a ^^^ k) ^^^ f) ^^^ k = a ^^^ f := by
  rw [Nat.xor_assoc a k f, Nat.xor_assoc a (k ^^^ f) k, Nat.xor_comm k f,
    Nat.xor_assoc f k k, Nat.xor_self, Nat.xor_zero]

/-- Unwhitening a flipped whitened string flips the underlying string. -/
theorem unwhiten_flipAt (ks : Nat) {l : Bytes} {n : Nat} (h : n < l.length)
    (j : Nat) :
    (flipAt (l.map (fun b => b ^^^ ks)) n j).map (fun b => b ^^^ ks) =
      flipAt l n j := by
  unfold flipAt
  rw [List.map_set, Schnorr.unwhiten_whiten]
  congr 1
  have hg : (l.map (fun b => b ^^^ ks)).getD n 0 = l.getD n 0 ^^^ ks := by
    rw [List.getD_eq_getElem _ _ (by simpa using h), List.getElem_map,
      ← List.getD_eq_getElem _ _ h]
  rw [hg]
  exact xor_rotate _ _ _

/-- A wire string containing a non-byte value never decodes as a scalar. -/
theorem decodeScalar_none_of_big {bs : Bytes} {x : Nat} (hx : x ∈ bs)
    (hbig : 256 ≤ x) : decodeScalar bs = none := by
  unfold decodeScalar
  apply if_neg
  intro hcond
  have := (List.all_eq_true.mp hcond.2.1) x hx
  simp at this
  omega

/-- Scalar bytes whitened under one state and unwhitened under a different
state never decode. -/
theorem cross_decode_none {pa pb : Duplex} (hne : pa ≠ pb) (s : Scalar) :
    decodeScalar (((encodeScalar s).map (fun b => b ^^^ dsq pa)).map
      (fun b => b ^^^ dsq pb)) = none := by
  have hlen : (encodeScalar s).length = 32 := encodeScalar_length s
  obtain ⟨e, rest, hcons⟩ : ∃ e rest, encodeScalar s = e :: rest := by
    cases hes : encodeScalar s with
    | nil => rw [hes] at hlen; simp at hlen
    | cons e r => exact ⟨e, r, rfl⟩
  have he : e < 256 := by
    have := encode32_lt s.val e
    rw [show encode32 s.val = encodeScalar s from rfl, hcons] at this
    exact this (List.mem_cons_self e rest)
  rw [hcons]
  simp only [List.map_cons]
  exact decodeScalar_none_of_big (List.mem_cons_self _ _) (cross_whiten_ge he hne)

/-- Changing one digit of a canonical byte string changes its value. -/
theorem ofDigits_set_ne : ∀ (bs : List Nat) (m b' : Nat), m < bs.length →
    (∀ e ∈ bs, e < 256) → b' < 256 → b' ≠ bs.getD m 0 →
    Nat.ofDigits 256 (bs.set m b') ≠ Nat.ofDigits 256 bs := by
  intro bs
  induction bs with
  | nil => intro m b' hm; simp at hm
  | cons e t ih =>
    intro m b' hm hlt hb' hne
    cases m with
    | zero =>
      simp only [List.set_cons_zero, Nat.ofDigits_cons]
      have he : e < 256 := hlt e (List.mem_cons_self e t)
      have hbe : b' ≠ e := by simpa using hne
      intro hc
      exact hbe (by omega)
    | succ m' =>
      simp only [List.set_cons_succ, Nat.ofDigits_cons]
      have hrec := ih m' b' (by simpa using hm)
        (fun x hx => hlt x (List.mem_cons_of_mem e hx)) hb'
        (by simpa using hne)
      intro hc
      exact hrec (by omega)

/-- A scalar decoded from a single-bit flip of a canonical scalar encoding
differs from the original scalar. -/
theorem decode_flip_es {s : Scalar} {m j : Nat} (hm : m < 32) (hj : j < 8) :
    ∀ t, decodeScalar (flipAt (encodeScalar s) m j) = some t → t ≠ s := by
  intro t ht
  have hlen : (encodeScalar s).length = 32 := encodeScalar_length s
  have hmlen : m < (encodeScalar s).length := by omega
  have hgd : (encodeScalar s).getD m 0 < 256 := by
    rw [List.getD_eq_getElem _ _ hmlen]
    exact encode32_lt s.val _ (List.getElem_mem hmlen)
  have hvne : Nat.ofDigits 256 (flipAt (encodeScalar s) m j) ≠
      Nat.ofDigits 256 (encodeScalar s) := by
    unfold flipAt
    exact ofDigits_set_ne (encodeScalar s) m _ hmlen
      (encode32_lt s.val) (flip_lt hgd hj) (flip_ne _ _)
  unfold decodeScalar at ht
  by_cases hcond : (flipAt (encodeScalar s) m j).length = 32 ∧
      (flipAt (encodeScalar s) m j).all (· < 256) ∧
      decodeNat (flipAt (encodeScalar s) m j) < GroupOrder
  · rw [if_pos hcond] at ht
    have htv : t = ((decodeNat (flipAt (encodeScalar s) m j) : Nat) : Scalar) :=
      (Option.some.injEq _ _ ▸ ht).symm
    intro hts
    apply hvne
    have hval : t.val = decodeNat (flipAt (encodeScalar s) m j) := by
      rw [htv]
      exact ZMod.val_cast_of_lt hcond.2.2
    have hsv : s.val = Nat.ofDigits 256 (encodeScalar s) := by
      rw [show encodeScalar s = encode32 s.val from rfl, ofDigits_encode32]
    unfold decodeNat at hval
    calc Nat.ofDigits 256 (flipAt (encodeScalar s) m j) = t.val := hval.symm
      _ = s.val := by rw [hts]
      _ = Nat.ofDigits 256 (encodeScalar s) := hsv
  · rw [if_neg hcond] at ht
    exact absurd ht (by simp)

namespace Schnorr

/-- If the verifier state diverged from the signer state before the proof
scalar is decrypted, the proof scalar bytes no longer decode and
verification fails. -/
theorem verify_protocol_none_of_diff (p' : Duplex) (q : Point) (ct_i' : Bytes)
    (p2 : Duplex) (s : Scalar) (hlen : ct_i'.length = POINT_LEN)
    (hdiff : p2 ≠ dpush (dpush p' 3 (ct_i'.map (fun b => b ^^^ dsq p'))) 2 [16]) :
    (verify_protocol p' q
      (ct_i' ++ (encodeScalar s).map (fun b => b ^^^ dsq p2))).1 = none := by
  unfold verify_protocol
  simp only [take_plen _ hlen, drop_plen _ hlen, duplexDec, squeeze]
  rw [cross_decode_none hdiff s]

/-- A bit flip in the encrypted commitment half of the signature makes
verification fail. -/
theorem verify_flip_sig_i (d k : Scalar) (msg : Bytes) {n j : Nat}
    (hn : n < POINT_LEN) (hj : j < 8) :
    verify (mulgen d) msg (flipAt (sign d k msg) n j) = none := by
  unfold sign verify
  set p0 := absorb (absorb (newDuplex schnorrDomain) (encodePoint (mulgen d))) msg
    with hp0
  set sig_i := encodePoint (mulgen k) with hsigi
  set ct_i := sig_i.map (fun b => b ^^^ dsq p0) with hcti
  set p1 := dpush p0 3 sig_i with hp1
  set p2 := dpush p1 2 [16] with hp2
  set r : Scalar := ((decodeNat (List.replicate 16 (dsq p1)) : Nat) : Scalar) with hr
  set s := d * r + k with hs
  set ct_s := (encodeScalar s).map (fun b => b ^^^ dsq p2) with hcts
  have hsig : (sign_protocol p0 k d).1 = ct_i ++ ct_s := rfl
  have hlci : ct_i.length = POINT_LEN := by
    rw [hcti, whiten_length, hsigi, encodePoint_length]
    rfl
  have hlsi : sig_i.length = POINT_LEN := by
    rw [hsigi, encodePoint_length]
    rfl
  have hnsi : n < sig_i.length := by rw [hlsi]; exact hn
  have hflip : flipAt (ct_i ++ ct_s) n j = flipAt ct_i n j ++ ct_s :=
    flipAt_append_left _ (by rw [hlci]; exact hn) j
  rw [hsig, hflip]
  have hiu : (flipAt ct_i n j).map (fun b => b ^^^ dsq p0) = flipAt sig_i n j := by
    rw [hcti]
    exact unwhiten_flipAt (dsq p0) hnsi j
  apply verify_protocol_none_of_diff p0 (mulgen d) (flipAt ct_i n j) p2 s
    (by rw [flipAt_length]; exact hlci)
  rw [hiu]
  have hdiff : DuplexDiff (dpush p0 3 sig_i) (dpush p0 3 (flipAt sig_i n j)) :=
    DuplexDiff.intro 3 (by rw [flipAt_length]) (flipAt_ne hnsi j).symm
  exact (hdiff.push 2 rfl).2

/-- A bit flip in the encrypted proof-scalar half of the signature makes
verification fail. -/
theorem verify_flip_sig_s (d k : Scalar) (msg : Bytes) {n j : Nat}
    (hn : POINT_LEN ≤ n) (hn2 : n < SIGNATURE_LEN) (hj : j < 8) :
    verify (mulgen d) msg (flipAt (sign d k msg) n j) = none := by
  unfold sign verify
  set p0 := absorb (absorb (newDuplex schnorrDomain) (encodePoint (mulgen d))) msg
    with hp0
  set sig_i := encodePoint (mulgen k) with hsigi
  set ct_i := sig_i.map (fun b => b ^^^ dsq p0) with hcti
  set p1 := dpush p0 3 sig_i with hp1
  set p2 := dpush p1 2 [16] with hp2
  set r : Scalar := ((decodeNat (List.replicate 16 (dsq p1)) : Nat) : Scalar) with hr
  set s := d * r + k with hs
  set es := encodeScalar s with hes
  set ct_s := es.map (fun b => b ^^^ dsq p2) with hcts
  have hsig : (sign_protocol p0 k d).1 = ct_i ++ ct_s := rfl
  have hlci : ct_i.length = POINT_LEN := by
    rw [hcti, whiten_length, hsigi, encodePoint_length]
    rfl
  have hles : es.length = 32 := by rw [hes, encodeScalar_length]
  have hm : n - POINT_LEN < 32 := by
    unfold SIGNATURE_LEN POINT_LEN SCALAR_LEN at hn2
    unfold POINT_LEN
    omega
  have hmc : n - POINT_LEN < ct_s.length := by
    rw [hcts, whiten_length, hles]
    exact hm
  have hflip : flipAt (ct_i ++ ct_s) n j = ct_i ++ flipAt ct_s (n - POINT_LEN) j := by
    have h1 : ct_i.length ≤ n := by rw [hlci]; exact hn
    have h2 := flipAt_append_right (a := ct_i) (n := n) ct_s h1 j
    rwa [hlci] at h2
  rw [hsig, hflip]
  have hdec1 : duplexDec p0 ct_i = (sig_i, p1) := duplexDec_enc p0 sig_i
  have hsu : (flipAt ct_s (n - POINT_LEN) j).map (fun b => b ^^^ dsq p2) =
      flipAt es (n - POINT_LEN) j := by
    rw [hcts]
    exact unwhiten_flipAt (dsq p2) (by rw [hles]; exact hm) j
  unfold verify_protocol
  simp only [take_plen _ hlci, drop_plen _ hlci, squeeze, duplexDec]
  have hct : ct_i.map (fun b => b ^^^ dsq p0) = sig_i := by
    rw [hcti]
    exact unwhiten_whiten (dsq p0) sig_i
  rw [hct, ← hp1, ← hp2, hsu]
  rcases hdec : decodeScalar (flipAt es (n - POINT_LEN) j) with _ | t
  · rfl
  · rw [← hr]
    refine if_neg ?_
    intro hc
    have hinj : mulgen t - r * mulgen d = mulgen k := encodePoint_inj hc
    have ht : t ≠ s := decode_flip_es hm hj t (by rw [← hes]; exact hdec)
    apply ht
    calc t = mulgen t - r * mulgen d + r * d := by unfold mulgen; ring
      _ = mulgen k + r * d := by rw [hinj]
      _ = d * r + k := by unfold mulgen; ring
      _ = s := by rw [hs]

/-- A bit flip anywhere in the message makes verification fail. -/
theorem verify_flip_msg (d k : Scalar) (msg : Bytes) {n j : Nat}
    (hn : n < msg.length) (hj : j < 8) :
    verify (mulgen d) (flipAt msg n j) (sign d k msg) = none := by
  unfold sign verify
  set base := absorb (newDuplex schnorrDomain) (encodePoint (mulgen d)) with hbase
  set p0 := absorb base msg with hp0
  set p0' := absorb base (flipAt msg n j) with hp0m
  set sig_i := encodePoint (mulgen k) with hsigi
  set ct_i := sig_i.map (fun b => b ^^^ dsq p0) with hcti
  set p1 := dpush p0 3 sig_i with hp1
  set p2 := dpush p1 2 [16] with hp2
  set r : Scalar := ((decodeNat (List.replicate 16 (dsq p1)) : Nat) : Scalar) with hr
  set s := d * r + k with hs
  set ct_s := (encodeScalar s).map (fun b => b ^^^ dsq p2) with hcts
  have hsig : (sign_protocol p0 k d).1 = ct_i ++ ct_s := rfl
  have hlci : ct_i.length = POINT_LEN := by
    rw [hcti, whiten_length, hsigi, encodePoint_length]
    rfl
  rw [hsig]
  apply verify_protocol_none_of_diff p0' (mulgen d) ct_i p2 s hlci
  have hdiff0 : DuplexDiff p0 p0' :=
    DuplexDiff.intro (d := base) 1 (by rw [flipAt_length]) (flipAt_ne hn j).symm
  have hdiff1 : DuplexDiff p1 (dpush p0' 3 (ct_i.map (fun b => b ^^^ dsq p0'))) := by
    rw [hp1]
    exact hdiff0.push 3 (by rw [whiten_length, hlci, hsigi, encodePoint_length]; rfl)
  exact ((hdiff1).push 2 rfl).2

end Schnorr

/-- C3: for every signer key pair (d, Q = d G), hedged commitment scalar,
and message (including the empty message), verifying a signature produced
by sign succeeds; and flipping any single bit of the signature or of the
message makes verification fail (spec sections 4.5 and 8). -/
theorem C3_schnorr_sign_verify_tamper (d k : Scalar) (msg : Bytes) :
    Schnorr.verify (mulgen d) msg (Schnorr.sign d k msg) = some () ∧
    (∀ n j, n < Schnorr.SIGNATURE_LEN → j < 8 →
      Schnorr.verify (mulgen d) msg (flipAt (Schnorr.sign d k msg) n j) = none) ∧
    (∀ n j, n < msg.length → j < 8 →
      Schnorr.verify (mulgen d) (flipAt msg n j) (Schnorr.sign d k msg) = none) := by
  refine ⟨Schnorr.verify_sign d k msg, ?_, ?_⟩
  · intro n j hn hj
    rcases Nat.lt_or_ge n POINT_LEN with h | h
    · exact Schnorr.verify_flip_sig_i d k msg h hj
    · exact Schnorr.verify_flip_sig_s d k msg h hn hj
  · intro n j hn hj
    exact Schnorr.verify_flip_msg d k msg hn hj

/-- Witness for C3 at a concrete key pair, commitment, the empty message,
and a concrete bit flip. -/
theorem C3_witness :
    Schnorr.verify (mulgen 1) [] (Schnorr.sign 1 0 []) = some () ∧
    (0 < Schnorr.SIGNATURE_LEN ∧ 0 < 8) ∧
    Schnorr.verify (mulgen 1) [] (flipAt (Schnorr.sign 1 0 []) 0 0) = none := by
  refine ⟨(C3_schnorr_sign_verify_tamper 1 0 []).1, ⟨by decide, by decide⟩, ?_⟩
  exact (C3_schnorr_sign_verify_tamper 1 0 []).2.1 0 0 (by decide) (by decide)

/-! ## AKEM, the single-receiver signcryption (src/veil/src/akem.rs and
src/src/akem.rs)

Both generations of the file are embedded: the newer strobe construction
with overhead POINT_LEN + MAC_LEN, and the older construction that also
carries a commitment point and a signature point, with overhead
3 * POINT_LEN + MAC_LEN.  Strobe protocols are the ideal duplex; the meta
operations are transcript pushes of their own opcode. -/

/-- The length of a MAC in bytes (src/src/util.rs). -/
def MAC_LEN : Nat := 16

/-- The byte codes of a string literal. -/
def strBytes (s : String) : Bytes := s.data.map Char.toNat

/-- A strobe meta operation on the transcript. -/
def metaAd (d : Duplex) (data : Bytes) : Duplex := dpush d 7 data

/-- The domain string veil.akem as bytes. -/
def akemDomain : Bytes := [118, 101, 105, 108, 46, 97, 107, 101, 109]

/-- prf_scalar of the older strobe wrapper: squeeze 64 bytes and reduce
modulo the group order. -/
def prf_scalar (d : Duplex) : Scalar × Duplex :=
  let (bs, d1) := squeeze d 64
  (((decodeNat bs : Nat) : Scalar), d1)

namespace AkemNew

/-- The number of bytes encapsulation adds to a plaintext
(src/veil/src/akem.rs line 8). -/
def OVERHEAD : Nat := POINT_LEN + MAC_LEN

/-- encapsulate from src/veil/src/akem.rs: include sender and receiver as
associated data, key with the static shared secret, encrypt the ephemeral
public key, key with the ephemeral shared secret, encrypt the plaintext,
and append a MAC. -/
def encapsulate (d_s : Scalar) (q_s : Point) (d_e : Scalar) (q_e : Point)
    (q_r : Point) (pt : Bytes) : Bytes :=
  let a0 := newDuplex akemDomain
  let a1 := metaAd a0 [MAC_LEN]
  let a2 := absorb a1 (encodePoint q_s)
  let a3 := absorb a2 (encodePoint q_r)
  let a4 := keyWith a3 (encodePoint (smul d_s q_r))
  let (ct1, a5) := duplexEnc a4 (encodePoint q_e)
  let a6 := keyWith a5 (encodePoint (smul d_e q_r))
  let (ct2, a7) := duplexEnc a6 pt
  ct1 ++ ct2 ++ tagOf a7

theorem encapsulate_length_new (d_s : Scalar) (q_s : Point) (d_e : Scalar)
    (q_e : Point) (q_r : Point) (pt : Bytes) :
    (encapsulate d_s q_s d_e q_e q_r pt).length = pt.length + OVERHEAD := by
  unfold encapsulate OVERHEAD POINT_LEN MAC_LEN
  simp only [duplexEnc, List.length_append, List.length_map, tagOf_length,
    encodePoint_length]
  unfold TAG_LEN
  omega

end AkemNew

namespace AkemOld

/-- The number of bytes encapsulation adds to a plaintext
(src/src/akem.rs line 10). -/
def OVERHEAD : Nat := POINT_LEN + POINT_LEN + POINT_LEN + MAC_LEN

/-- encapsulate from src/src/akem.rs.  The hedged commitment scalar k is a
parameter (the source derives it from the protocol clone and fresh
randomness).  The non-contributory Diffie-Hellman panic of the source is
modelled as None. -/
def encapsulate (d_s : Scalar) (q_s : Point) (d_e : Scalar) (q_e : Point)
    (q_r : Point) (k : Scalar) (pt : Bytes) : Option Bytes :=
  let a0 := newDuplex akemDomain
  let a1 := metaAd (metaAd a0 (strBytes "sender-public-key")) [32]
  let a2 := absorb a1 (encodePoint q_s)
  let a3 := metaAd (metaAd a2 (strBytes "receiver-public-key")) [32]
  let a4 := absorb a3 (encodePoint q_r)
  let zz_s := smul d_s q_r
  if zz_s = 0 then none else
  let a5 := keyWith (metaAd a4 (strBytes "static-shared-secret"))
    (encodePoint zz_s)
  let (ct_qe, a6) := duplexEnc (metaAd a5 (strBytes "ephemeral-public-key"))
    (encodePoint q_e)
  let u := mulgen k
  let (ct_u, a7) := duplexEnc (metaAd a6 (strBytes "commitment-point"))
    (encodePoint u)
  let (r, a8) := prf_scalar (metaAd a7 (strBytes "challenge-scalar"))
  let s := k + r * d_s
  let kp := smul s q_r
  let (ct_k, a9) := duplexEnc (metaAd a8 (strBytes "signature-point"))
    (encodePoint kp)
  let zz_e := smul d_e q_r
  if zz_e = 0 then none else
  let a10 := keyWith (metaAd a9 (strBytes "ephemeral-shared-secret"))
    (encodePoint zz_e)
  let (ct_pt, a11) := duplexEnc (metaAd a10 (strBytes "ciphertext")) pt
  some (ct_qe ++ ct_u ++ ct_k ++ ct_pt ++ tagOf (metaAd a11 (strBytes "mac")))

theorem encapsulate_length_old (d_s : Scalar) (q_s : Point) (d_e : Scalar)
    (q_e : Point) (q_r : Point) (k : Scalar) (pt : Bytes) (out : Bytes)
    (h : encapsulate d_s q_s d_e q_e q_r k pt = some out) :
    out.length = pt.length + OVERHEAD := by
  unfold encapsulate at h
  by_cases h1 : smul d_s q_r = 0
  · simp only [h1, if_pos rfl] at h
    exact absurd h (by simp)
  · simp only [if_neg h1] at h
    by_cases h2 : smul d_e q_r = 0
    · simp only [h2, if_pos rfl] at h
      exact absurd h (by simp)
    · simp only [if_neg h2] at h
      have hx := Option.some.inj h
      rw [← hx]
      unfold OVERHEAD POINT_LEN MAC_LEN
      simp only [duplexEnc, List.length_append, List.length_map, tagOf_length,
        encodePoint_length]
      unfold TAG_LEN
      omega

end AkemOld

/-- C8 amended: the single-receiver signcryption of src/veil/src/akem.rs
has constant overhead POINT_LEN + 16; the older src/src/akem.rs
encapsulation instead has constant overhead 3 * POINT_LEN + 16 = 112
bytes, because it also carries an encrypted commitment point and an
encrypted signature point. -/
theorem C8_akem_overhead (d_s : Scalar) (q_s : Point) (d_e : Scalar)
    (q_e : Point) (q_r : Point) (k : Scalar) (pt : Bytes) :
    (AkemNew.encapsulate d_s q_s d_e q_e q_r pt).length =
      pt.length + (POINT_LEN + 16) ∧
    (∀ out, AkemOld.encapsulate d_s q_s d_e q_e q_r k pt = some out →
      out.length = pt.length + (3 * POINT_LEN + 16)) := by
  constructor
  · have := AkemNew.encapsulate_length_new d_s q_s d_e q_e q_r pt
    rwa [show AkemNew.OVERHEAD = POINT_LEN + 16 from rfl] at this
  · intro out hout
    have := AkemOld.encapsulate_length_old d_s q_s d_e q_e q_r k pt out hout
    rwa [show AkemOld.OVERHEAD = 3 * POINT_LEN + 16 from by
      unfold AkemOld.OVERHEAD POINT_LEN MAC_LEN; omega] at this

set_option maxRecDepth 8000 in
/-- Witness for the amended C8 at concrete inputs. -/
theorem C8_witness :
    (AkemNew.encapsulate 1 1 1 1 1 []).length = 0 + (POINT_LEN + 16) ∧
    AkemOld.encapsulate 1 1 1 1 1 1 [] ≠ none := by
  constructor
  · exact (C8_akem_overhead 1 1 1 1 1 1 []).1
  · decide

set_option maxRecDepth 8000 in
/-- C8 counterexample: the older encapsulation produces a ciphertext whose
length differs from the claimed m plus POINT_LEN plus 16. -/
theorem C8_counterexample :
    ¬ (∀ out, AkemOld.encapsulate 1 1 1 1 1 1 [] = some out →
        out.length = ([] : Bytes).length + (POINT_LEN + 16)) := by
  intro hc
  have hsome : ∃ out, AkemOld.encapsulate 1 1 1 1 1 1 [] = some out :=
    Option.isSome_iff_exists.mp (by decide)
  obtain ⟨out, hout⟩ := hsome
  have hlen := AkemOld.encapsulate_length_old 1 1 1 1 1 1 [] out hout
  have hclaim := hc out hout
  rw [hlen] at hclaim
  unfold AkemOld.OVERHEAD POINT_LEN MAC_LEN at hclaim
  omega

/-! ## Hedged randomness (src/src/duplex.rs, Absorb::hedge) -/

/-- hedge from src/src/duplex.rs: clone the duplex state, absorb the given
secret on the clone, absorb a 64-byte random value on the clone, and call
the given function with the clone.  The method takes the duplex by shared
reference; in state-passing form it returns the function result together
with the caller state. -/
def hedge {α : Type} (d : Duplex) (rng : Bytes) (secret : Bytes)
    (f : Duplex → α) : α × Duplex :=
  (f (absorb (absorb d secret) rng), d)

/-- C9: hedging returns the result of the function applied to a clone into
which the secret and the 64 random bytes have been absorbed, and the
caller state after the call is the original state, so no later operation
on the caller can observe the hedge (spec sections 4.1 and 9). -/
theorem C9_hedge_frame {α : Type} (d : Duplex) (rng : Bytes) (secret : Bytes)
    (f : Duplex → α) (hrng : rng.length = 64) :
    (hedge d rng secret f).2 = d ∧
    (hedge d rng secret f).1 = f (absorb (absorb d secret) rng) ∧
    (∀ n, squeeze (hedge d rng secret f).2 n = squeeze d n) ∧
    (∀ data, absorb (hedge d rng secret f).2 data = absorb d data) :=
  ⟨rfl, rfl, fun _ => rfl, fun _ => rfl⟩

/-- Witness for C9 at a concrete state, secret, and 64-byte random value. -/
theorem C9_witness :
    (List.replicate 64 0 : Bytes).length = 64 ∧
    (hedge ⟨[5]⟩ (List.replicate 64 0) [7] dcode).2 = (⟨[5]⟩ : Duplex) := by
  refine ⟨by decide, ?_⟩
  exact (C9_hedge_frame ⟨[5]⟩ (List.replicate 64 0) [7] dcode (by decide)).1

/-! ## Absorbing a byte stream in blocks (src/src/duplex.rs,
Absorb::absorb_blocks)

The reader is a list of chunks, the successive byte runs the underlying
reader delivers; a well-formed reader has no empty chunk (a Rust read of
zero bytes means end of stream).  take(BLOCK_LEN).read_to_end collects
exactly min(BLOCK_LEN, remaining) bytes regardless of chunk boundaries. -/

/-- read_to_end over take(n): collect min(n, remaining) bytes from the
chunked reader, returning the bytes and the remaining reader. -/
def readUpTo : List Bytes → Nat → Bytes × List Bytes
  | [], _ => ([], [])
  | c :: rest, n =>
    if n = 0 then ([], c :: rest)
    else if c.length ≤ n then
      let (more, rest') := readUpTo rest (n - c.length)
      (c ++ more, rest')
    else (c.take n, c.drop n :: rest)

/-- The loop of absorb_blocks, with fuel. -/
def absorb_blocks_go : Nat → Duplex → List Bytes → Duplex
  | 0, d, _ => d
  | fuel + 1, d, chunks =>
    let (block, rest) := readUpTo chunks (32 * 1024)
    let d1 := absorb d block
    if block.length < 32 * 1024 then d1 else absorb_blocks_go fuel d1 rest

/-- absorb_blocks from src/src/duplex.rs: read the reader in 32 KiB blocks
and absorb each block, stopping after an undersized block. -/
def absorb_blocks (d : Duplex) (chunks : List Bytes) : Duplex :=
  absorb_blocks_go ((chunks.map List.length).sum + 1) d chunks

theorem readUpTo_join : ∀ (chunks : List Bytes) (n : Nat),
    (∀ c ∈ chunks, c ≠ []) →
    (readUpTo chunks n).1 = chunks.flatten.take n ∧
    (readUpTo chunks n).2.flatten = chunks.flatten.drop n ∧
    (∀ c ∈ (readUpTo chunks n).2, c ≠ []) := by
  intro chunks
  induction chunks with
  | nil =>
    intro n _
    simp [readUpTo]
  | cons c rest ih =>
    intro n hwf
    by_cases hn : n = 0
    · subst hn
      simp only [readUpTo, if_pos rfl]
      refine ⟨by simp, by simp, hwf⟩
    · rw [readUpTo]
      rw [if_neg hn]
      by_cases hcl : c.length ≤ n
      · rw [if_pos hcl]
        obtain ⟨ih1, ih2, ih3⟩ := ih (n - c.length)
          (fun x hx => hwf x (List.mem_cons_of_mem c hx))
        simp only [List.flatten_cons]
        refine ⟨?_, ?_, ?_⟩
        · rw [List.take_append_eq_append_take, List.take_of_length_le hcl, ih1]
        · rw [List.drop_append_eq_append_drop,
            List.drop_eq_nil_of_le hcl, List.nil_append]
          exact ih2
        · exact ih3
      · rw [if_neg hcl]
        push_neg at hcl
        simp only [List.flatten_cons]
        refine ⟨?_, ?_, ?_⟩
        · rw [List.take_append_eq_append_take,
            Nat.sub_eq_zero_of_le (le_of_lt hcl), List.take_zero,
            List.append_nil]
        · rw [List.drop_append_eq_append_drop,
            Nat.sub_eq_zero_of_le (le_of_lt hcl), List.drop_zero]
        · intro x hx
          rcases List.mem_cons.mp hx with hx | hx
          · subst hx
            intro hc
            have := congrArg List.length hc
            simp at this
            omega
          · exact hwf x (List.mem_cons_of_mem c hx)

theorem absorb_blocks_go_content : ∀ (fuel : Nat) (d : Duplex)
    (r1 r2 : List Bytes), (∀ c ∈ r1, c ≠ []) → (∀ c ∈ r2, c ≠ []) →
    r1.flatten = r2.flatten →
    absorb_blocks_go fuel d r1 = absorb_blocks_go fuel d r2 := by
  intro fuel
  induction fuel with
  | zero => intro d r1 r2 _ _ _; rfl
  | succ f ih =>
    intro d r1 r2 h1 h2 hj
    obtain ⟨a1, b1, c1⟩ := readUpTo_join r1 (32 * 1024) h1
    obtain ⟨a2, b2, c2⟩ := readUpTo_join r2 (32 * 1024) h2
    rw [absorb_blocks_go, absorb_blocks_go]
    have hblock : (readUpTo r1 (32 * 1024)).1 = (readUpTo r2 (32 * 1024)).1 := by
      rw [a1, a2, hj]
    have hrest : (readUpTo r1 (32 * 1024)).2.flatten =
        (readUpTo r2 (32 * 1024)).2.flatten := by
      rw [b1, b2, hj]
    simp only [hblock]
    by_cases hshort : (readUpTo r2 (32 * 1024)).1.length < 32 * 1024
    · rw [if_pos hshort, if_pos hshort]
    · rw [if_neg hshort, if_neg hshort]
      exact ih _ _ _ c1 c2 hrest

/-- C10: two readers that deliver the same byte content, however their
reads are chunked, leave absorb_blocks in identical duplex states, and
every later squeeze agrees: the absorbed transcript depends only on the
stream content because input is re-buffered into fixed 32 KiB absorb
calls. -/
theorem C10_absorb_blocks_chunking_independent (d : Duplex)
    (r1 r2 : List Bytes) (h1 : ∀ c ∈ r1, c ≠ []) (h2 : ∀ c ∈ r2, c ≠ [])
    (hjoin : r1.flatten = r2.flatten) :
    absorb_blocks d r1 = absorb_blocks d r2 ∧
    ∀ n, squeeze (absorb_blocks d r1) n = squeeze (absorb_blocks d r2) n := by
  have hfuel : (r1.map List.length).sum = (r2.map List.length).sum := by
    rw [← List.length_flatten, ← List.length_flatten, hjoin]
  have hmain : absorb_blocks d r1 = absorb_blocks d r2 := by
    unfold absorb_blocks
    rw [hfuel]
    exact absorb_blocks_go_content _ d r1 r2 h1 h2 hjoin
  exact ⟨hmain, fun n => by rw [hmain]⟩

/-- Witness for C10: the same three bytes delivered in one chunk and in
two chunks. -/
theorem C10_witness :
    (∀ c ∈ [[1, 2, 3]], c ≠ ([] : Bytes)) ∧
    absorb_blocks ⟨[]⟩ [[1, 2, 3]] = absorb_blocks ⟨[]⟩ [[1], [2, 3]] := by
  refine ⟨by decide, ?_⟩
  exact (C10_absorb_blocks_chunking_independent ⟨[]⟩ [[1, 2, 3]] [[1], [2, 3]]
    (by decide) (by decide) (by decide)).1

/-! ## MRES constants and the header codec (src/veil/src/mres.rs) -/

namespace Mres

/-- The length of plaintext blocks which are encrypted. -/
def BLOCK_LEN : Nat := 32 * 1024

/-- The length of an encrypted block and authentication tag. -/
def ENC_BLOCK_LEN : Nat := BLOCK_LEN + TAG_LEN

/-- The length of the data encryption key. -/
def DEK_LEN : Nat := 32

/-- The length of an encoded header: DEK plus two u64 fields. -/
def HEADER_LEN : Nat := DEK_LEN + 8 + 8

/-- Modelled from the spec: NONCE_LEN of the sres module, which is absent
from the source tree (spec section 4.6 defers to SRES). -/
def NONCE_LEN : Nat := 16

/-- Modelled from the spec: the sres overhead, POINT_LEN plus a 16-byte
tag (spec section 4.4). -/
def SRES_OVERHEAD : Nat := POINT_LEN + TAG_LEN

/-- The length of an encrypted header. -/
def ENC_HEADER_LEN : Nat := HEADER_LEN + SRES_OVERHEAD

/-- The domain string veil.mres as bytes. -/
def mresDomain : Bytes := [118, 101, 105, 108, 46, 109, 114, 101, 115]

/-- The domain string veil.sres as bytes (spec section 4.4). -/
def sresDomain : Bytes := [118, 101, 105, 108, 46, 115, 114, 101, 115]

/-- Little-endian 8-byte encoding of a u64 value. -/
def encode64 (v : Nat) : Bytes :=
  bytesOf v ++ List.replicate (8 - (bytesOf v).length) 0

theorem encode64_length {v : Nat} (h : v < 2 ^ 64) : (encode64 v).length = 8 := by
  have h2 : v < 256 ^ 8 := by
    have : (256 : Nat) ^ 8 = 2 ^ 64 := by norm_num
    omega
  have := bytesAux_len v v 8 h2
  simp only [encode64, List.length_append, List.length_replicate, bytesOf]
  omega

theorem decode_encode64 (v : Nat) : decodeNat (encode64 v) = v := by
  unfold encode64 decodeNat
  rw [show (Nat.ofDigits 256 (bytesOf v ++
      List.replicate (8 - (bytesOf v).length) 0) : Nat) =
      Nat.ofDigits 256 (bytesOf v) + (256 : Nat) ^ (bytesOf v).length *
      Nat.ofDigits 256 (List.replicate (8 - (bytesOf v).length) 0) from by
    exact_mod_cast Nat.ofDigits_append]
  rw [ofDigits_bytesOf, ofDigits_replicate_zero]
  omega

/-- Header::encode from src/veil/src/mres.rs: DEK, receiver count (u64
little-endian), padding (u64 little-endian). -/
def headerEncode (dek : Bytes) (recv_count : Nat) (padding : Nat) : Bytes :=
  dek ++ encode64 recv_count ++ encode64 padding

/-- Header::decode from src/veil/src/mres.rs: split at DEK_LEN and at the
u64 boundary. -/
def headerDecode (header : Bytes) : Bytes × Nat × Nat :=
  (header.take DEK_LEN,
   decodeNat ((header.drop DEK_LEN).take 8),
   decodeNat ((header.drop DEK_LEN).drop 8))

theorem headerDecode_encode {dek : Bytes} (hdek : dek.length = DEK_LEN)
    {rc pad : Nat} (hrc : rc < 2 ^ 64) (hpad : pad < 2 ^ 64) :
    headerDecode (headerEncode dek rc pad) = (dek, rc, pad) := by
  unfold headerDecode headerEncode
  have h1 : (dek ++ (encode64 rc ++ encode64 pad)).take DEK_LEN = dek := by
    rw [← hdek, List.take_left]
  have h2 : (dek ++ (encode64 rc ++ encode64 pad)).drop DEK_LEN =
      encode64 rc ++ encode64 pad := by
    rw [← hdek, List.drop_left]
  rw [List.append_assoc, h1, h2]
  have h3 : (encode64 rc ++ encode64 pad).take 8 = encode64 rc := by
    rw [← encode64_length hrc, List.take_left]
  have h4 : (encode64 rc ++ encode64 pad).drop 8 = encode64 pad := by
    rw [← encode64_length hrc, List.drop_left]
  rw [h3, h4, decode_encode64, decode_encode64]

theorem headerEncode_length {dek : Bytes} (hdek : dek.length = DEK_LEN)
    {rc pad : Nat} (hrc : rc < 2 ^ 64) (hpad : pad < 2 ^ 64) :
    (headerEncode dek rc pad).length = HEADER_LEN := by
  unfold headerEncode HEADER_LEN
  simp only [List.length_append, hdek, encode64_length hrc, encode64_length hpad]

end Mres

/-- A wire string containing a non-byte value never decodes as a point. -/
theorem decodePoint_none_of_big {bs : Bytes} {x : Nat} (hx : x ∈ bs)
    (hbig : 256 ≤ x) : decodePoint bs = none := by
  unfold decodePoint
  apply if_neg
  intro hcond
  have := (List.all_eq_true.mp hcond.2.1) x hx
  simp at this
  omega

/-- Point bytes whitened under one state and unwhitened under a different
state never decode. -/
theorem cross_decodePoint_none {pa pb : Duplex} (hne : pa ≠ pb) (q : Point) :
    decodePoint (((encodePoint q).map (fun b => b ^^^ dsq pa)).map
      (fun b => b ^^^ dsq pb)) = none := by
  have hlen : (encodePoint q).length = 32 := encodePoint_length q
  obtain ⟨e, rest, hcons⟩ : ∃ e rest, encodePoint q = e :: rest := by
    cases hes : encodePoint q with
    | nil => rw [hes] at hlen; simp at hlen
    | cons e r => exact ⟨e, r, rfl⟩
  have he : e < 256 := by
    have := encode32_lt q.val e
    rw [show encode32 q.val = encodePoint q from rfl, hcons] at this
    exact this (List.mem_cons_self e rest)
  rw [hcons]
  simp only [List.map_cons]
  exact decodePoint_none_of_big (List.mem_cons_self _ _) (cross_whiten_ge he hne)

namespace Mres

/-- Modelled from the spec: sres::encrypt (spec section 4.4).  Absorb the
sender public key, the receiver public key, and the nonce; key with the
static shared secret (rejecting the identity); encrypt the ephemeral
public key; key with the ephemeral shared secret (rejecting the
identity); encrypt the plaintext; append the tag. -/
def sres_encrypt (d_s d_e : Scalar) (q_r : Point) (nonce : Bytes)
    (pt : Bytes) : Option Bytes :=
  let p0 := newDuplex sresDomain
  let p1 := absorb p0 (encodePoint (mulgen d_s))
  let p2 := absorb p1 (encodePoint q_r)
  let p3 := absorb p2 nonce
  if smul d_s q_r = 0 then none else
  let p4 := keyWith p3 (encodePoint (smul d_s q_r))
  let (ct1, p5) := duplexEnc p4 (encodePoint (mulgen d_e))
  if smul d_e q_r = 0 then none else
  let p6 := keyWith p5 (encodePoint (smul d_e q_r))
  let (ct2, p7) := duplexEnc p6 pt
  some (ct1 ++ ct2 ++ tagOf (dpush p7 8 []))

/-- Modelled from the spec: sres::decrypt (spec section 4.4).  The mirror
of sres_encrypt; returns the decoded ephemeral public key and the
plaintext on tag match, None on any failure. -/
def sres_decrypt (d_r : Scalar) (q_s : Point) (nonce : Bytes)
    (ct : Bytes) : Option (Point × Bytes) :=
  if ct.length < POINT_LEN + TAG_LEN then none else
  let p0 := newDuplex sresDomain
  let p1 := absorb p0 (encodePoint q_s)
  let p2 := absorb p1 (encodePoint (mulgen d_r))
  let p3 := absorb p2 nonce
  if smul d_r q_s = 0 then none else
  let p4 := keyWith p3 (encodePoint (smul d_r q_s))
  let (qeb, p5) := duplexDec p4 (ct.take POINT_LEN)
  match decodePoint qeb with
  | none => none
  | some q_e =>
    if smul d_r q_e = 0 then none else
    let p6 := keyWith p5 (encodePoint (smul d_r q_e))
    let (pt, p7) := duplexDec p6 ((ct.drop POINT_LEN).take
      (ct.length - POINT_LEN - TAG_LEN))
    if ct.drop (ct.length - TAG_LEN) = tagOf (dpush p7 8 []) then
      some (q_e, pt)
    else none

theorem sres_encrypt_length {d_s d_e : Scalar} {q_r : Point} {nonce pt ct : Bytes}
    (h : sres_encrypt d_s d_e q_r nonce pt = some ct) :
    ct.length = pt.length + SRES_OVERHEAD := by
  unfold sres_encrypt at h
  by_cases h1 : smul d_s q_r = 0
  · simp only [h1, if_pos rfl] at h
    exact absurd h (by simp)
  · simp only [if_neg h1] at h
    by_cases h2 : smul d_e q_r = 0
    · simp only [h2, if_pos rfl] at h
      exact absurd h (by simp)
    · simp only [if_neg h2] at h
      have hx := Option.some.inj h
      rw [← hx]
      unfold SRES_OVERHEAD POINT_LEN
      simp only [duplexEnc, List.length_append, List.length_map, tagOf_length,
        encodePoint_length]
      omega

theorem take_32_of_append {a : Bytes} (b : Bytes) (h : a.length = 32) :
    (a ++ b).take 32 = a := by
  rw [← h, List.take_left]

theorem drop_32_of_append {a : Bytes} (b : Bytes) (h : a.length = 32) :
    (a ++ b).drop 32 = b := by
  rw [← h, List.drop_left]

/-- Decrypting an sres header with the intended receiver key pair recovers
the ephemeral public key and the header plaintext. -/
theorem sres_round_trip {d_s d_e d_r : Scalar} (hs : d_s * d_r ≠ 0)
    (he2 : d_e * d_r ≠ 0) (he : d_e ≠ 0) (nonce pt : Bytes) :
    ∃ ct, sres_encrypt d_s d_e (mulgen d_r) nonce pt = some ct ∧
      ct.length = pt.length + SRES_OVERHEAD ∧
      sres_decrypt d_r (mulgen d_s) nonce ct = some (mulgen d_e, pt) := by
  have hc1 : smul d_s (mulgen d_r) ≠ 0 := by
    unfold smul mulgen
    exact hs
  have hc2 : smul d_e (mulgen d_r) ≠ 0 := by
    unfold smul mulgen
    intro hz
    exact he2 (by rw [mul_comm] at hz; rw [mul_comm]; exact hz)
  set p0 := newDuplex sresDomain with hp0
  set p1 := absorb p0 (encodePoint (mulgen d_s)) with hp1
  set p2 := absorb p1 (encodePoint (mulgen d_r)) with hp2
  set p3 := absorb p2 nonce with hp3
  set p4 := keyWith p3 (encodePoint (smul d_s (mulgen d_r))) with hp4
  set ct1 := (encodePoint (mulgen d_e)).map (fun b => b ^^^ dsq p4) with hct1
  set p5 := dpush p4 3 (encodePoint (mulgen d_e)) with hp5
  set p6 := keyWith p5 (encodePoint (smul d_e (mulgen d_r))) with hp6
  set ct2 := pt.map (fun b => b ^^^ dsq p6) with hct2
  set p7 := dpush p6 3 pt with hp7
  set tg := tagOf (dpush p7 8 []) with htg
  have henc : sres_encrypt d_s d_e (mulgen d_r) nonce pt =
      some (ct1 ++ ct2 ++ tg) := by
    unfold sres_encrypt
    simp only [if_neg hc1, if_neg hc2, duplexEnc]
  refine ⟨ct1 ++ ct2 ++ tg, henc, ?_, ?_⟩
  · rw [hct1, hct2, htg]
    unfold SRES_OVERHEAD POINT_LEN
    simp only [List.length_append, List.length_map, tagOf_length,
      encodePoint_length]
    omega
  · have hl1 : ct1.length = 32 := by
      rw [hct1, Schnorr.whiten_length, encodePoint_length]
    have hlt : tg.length = TAG_LEN := by rw [htg, tagOf_length]
    have hlen : (ct1 ++ ct2 ++ tg).length = pt.length + 48 := by
      rw [hct2, htg]
      simp only [List.length_append, List.length_map, tagOf_length, hl1]
      unfold TAG_LEN
      omega
    have hcomm1 : smul d_r (mulgen d_s) = smul d_s (mulgen d_r) := by
      unfold smul mulgen
      ring
    have hcomm2 : smul d_r (mulgen d_e) = smul d_e (mulgen d_r) := by
      unfold smul mulgen
      ring
    have htake1 : (ct1 ++ ct2 ++ tg).take POINT_LEN = ct1 := by
      rw [List.append_assoc]
      exact take_32_of_append _ hl1
    have hdec1 : duplexDec p4 ((encodePoint (mulgen d_e)).map
        (fun b => b ^^^ dsq p4)) = (encodePoint (mulgen d_e), p5) :=
      duplexDec_enc p4 (encodePoint (mulgen d_e))
    have hqe : mulgen d_e ≠ 0 := he
    have hmid : ((ct1 ++ ct2 ++ tg).drop POINT_LEN).take
        ((ct1 ++ ct2 ++ tg).length - POINT_LEN - TAG_LEN) = ct2 := by
      rw [List.append_assoc]
      rw [show POINT_LEN = (32 : Nat) from rfl, drop_32_of_append _ hl1]
      have hlen2 : (ct1 ++ (ct2 ++ tg)).length = pt.length + 48 := by
        rw [← List.append_assoc]
        exact hlen
      rw [hlen2]
      have h9 : pt.length + 48 - 32 - TAG_LEN = ct2.length := by
        rw [hct2]
        simp only [List.length_map]
        unfold TAG_LEN
        omega
      rw [h9, List.take_left]
    have hdec2 : duplexDec p6 (pt.map (fun b => b ^^^ dsq p6)) = (pt, p7) :=
      duplexDec_enc p6 pt
    have htagd : (ct1 ++ ct2 ++ tg).drop ((ct1 ++ ct2 ++ tg).length - TAG_LEN)
        = tg := by
      have h8 : (ct1 ++ ct2 ++ tg).length - TAG_LEN = (ct1 ++ ct2).length := by
        simp only [List.length_append, hlt]
        omega
      rw [h8, List.drop_left]
    unfold sres_decrypt
    simp only []
    rw [hcomm1]
    rw [← hp0, ← hp1, ← hp2, ← hp3, ← hp4]
    rw [if_neg (by
      rw [hlen]
      unfold POINT_LEN TAG_LEN
      omega)]
    rw [if_neg hc1, htake1, hct1, hdec1, decodePoint_encode hqe]
    simp only []
    rw [hcomm2, if_neg hc2, ← hp6, hmid, hct2, hdec2]
    simp only []
    rw [htagd, htg, if_pos rfl]

/-- Decrypting an sres header that was encrypted for a different receiver
public key fails: the transcripts diverge at the receiver key absorption,
so the ephemeral key bytes do not decode. -/
theorem sres_decrypt_wrong_receiver {d_s d_e d_r : Scalar} {q : Point}
    (hq : q ≠ mulgen d_r) {nonce pt ct : Bytes}
    (henc : sres_encrypt d_s d_e q nonce pt = some ct) :
    sres_decrypt d_r (mulgen d_s) nonce ct = none := by
  unfold sres_encrypt at henc
  by_cases h1 : smul d_s q = 0
  · simp only [h1, if_pos rfl] at henc
    exact absurd henc (by simp)
  · simp only [if_neg h1] at henc
    by_cases h2 : smul d_e q = 0
    · simp only [h2, if_pos rfl] at henc
      exact absurd henc (by simp)
    · simp only [if_neg h2, duplexEnc] at henc
      have hct := (Option.some.inj henc).symm
      set p0 := newDuplex sresDomain with hp0
      set p1 := absorb p0 (encodePoint (mulgen d_s)) with hp1
      set p2 := absorb p1 (encodePoint q) with hp2
      set p3 := absorb p2 nonce with hp3
      set p4 := keyWith p3 (encodePoint (smul d_s q)) with hp4
      set ct1 := (encodePoint (mulgen d_e)).map (fun b => b ^^^ dsq p4) with hct1
      set p2r := absorb p1 (encodePoint (mulgen d_r)) with hp2r
      set p3r := absorb p2r nonce with hp3r
      set p4r := keyWith p3r (encodePoint (smul d_r (mulgen d_s))) with hp4r
      have hl1 : ct1.length = 32 := by
        rw [hct1, Schnorr.whiten_length, encodePoint_length]
      have hlen : ct.length = pt.length + 48 := by
        rw [hct]
        simp only [List.length_append, List.length_map, tagOf_length, hl1]
        unfold TAG_LEN
        omega
      unfold sres_decrypt
      rw [if_neg (by
        rw [hlen]
        unfold POINT_LEN TAG_LEN
        omega)]
      by_cases hrz : smul d_r (mulgen d_s) = 0
      · rw [if_pos hrz]
      · rw [if_neg hrz]
        have hdiffp : DuplexDiff p4 p4r := by
          have hd2 : DuplexDiff p2 p2r := by
            rw [hp2, hp2r]
            refine DuplexDiff.intro 1 (by rw [encodePoint_length, encodePoint_length]) ?_
            intro hc
            exact hq (encodePoint_inj hc)
          have hd3 : DuplexDiff p3 p3r := hd2.push 1 rfl
          exact hd3.push 5 (by rw [encodePoint_length, encodePoint_length])
        have htake1 : ct.take POINT_LEN = ct1 := by
          rw [hct, List.append_assoc]
          exact take_32_of_append _ hl1
        rw [htake1, hct1]
        simp only [duplexDec]
        rw [cross_decodePoint_none hdiffp.2 (mulgen d_e)]

/-! ## The multi-receiver cryptosystem proper (src/veil/src/mres.rs)

The reader and the writer are byte lists.  blockio::ReadBlock::read_block
is absent from the source tree; modelled from the spec: it fills the
destination buffer from the stream and returns fewer bytes only at end of
stream.  Likewise absorb_reader and absorb_reader_into absorb the read
bytes in 32 KiB blocks (the absorb_blocks discipline) and pass them
through.  The hedged ephemeral scalar d_e, DEK, nonce, and the signature
commitment scalar k are parameters standing for the outputs of the hedge
clones; C9 shows hedging leaves the caller state unchanged, so the caller
transcript is as if the hedges never ran.  Each loop is split into a step
function and a fuelled driver so the driver unfolds cheaply. -/

/-- The per-receiver loop of encrypt: squeeze a NONCE_LEN nonce, encrypt
the header for the receiver with veil.sres, absorb the encrypted header;
returns the concatenation of the encrypted headers and the final duplex.
None if any sres encryption rejects an identity shared secret. -/
def mres_headers (d_s d_e : Scalar) (header : Bytes) :
    Duplex → List Point → Option (Bytes × Duplex)
  | d, [] => some ([], d)
  | d, q :: rest =>
    let st := squeeze d NONCE_LEN
    (sres_encrypt d_s d_e q st.1 header).bind (fun eh =>
      (mres_headers d_s d_e header (absorb st.2 eh) rest).map
        (fun r => (eh ++ r.1, r.2)))

/-- The encrypt_message loop with fuel: read up to BLOCK_LEN plaintext
bytes, seal the block, and stop after an undersized block.  Returns the
ciphertext, the written byte count, and the final duplex.  The fuel
m.length / BLOCK_LEN + 1 is exactly the iteration count. -/
def encrypt_message_go : Nat → Duplex → Bytes → Bytes × Nat × Duplex
  | 0, d, _ => ([], 0, d)
  | fuel + 1, d, m =>
    let st := seal_mut d (m.take BLOCK_LEN)
    if m.length < BLOCK_LEN then (st.1, st.1.length, st.2)
    else
      let rest := encrypt_message_go fuel st.2 (m.drop BLOCK_LEN)
      (st.1 ++ rest.1, st.1.length + rest.2.1, rest.2.2)

/-- encrypt_message from src/veil/src/mres.rs in state-passing form. -/
def encrypt_message (d : Duplex) (m : Bytes) : Bytes × Nat × Duplex :=
  encrypt_message_go (m.length / BLOCK_LEN + 1) d m

/-- encrypt from src/veil/src/mres.rs: absorb the sender public key and
the nonce, write the nonce, encrypt a header per receiver, write the
padding, absorb the DEK, key the duplex, seal the message in blocks, and
sign the final state.  Returns the ciphertext stream and the written byte
count. -/
def mres_encrypt (d_s d_e k : Scalar) (dek nonce padBytes : Bytes)
    (receivers : List Point) (padding : Nat) (m : Bytes) :
    Option (Bytes × Nat) :=
  let m0 := absorb (newDuplex mresDomain) (encodePoint (mulgen d_s))
  let m1 := absorb m0 nonce
  let header := headerEncode dek receivers.length padding
  match mres_headers d_s d_e header m1 receivers with
  | none => none
  | some (hdrs, m2) =>
    let m3 := absorb_blocks m2 [padBytes]
    let m4 := into_keyed (absorb m3 dek)
    let enc := encrypt_message m4 m
    let sig := (Schnorr.sign_protocol enc.2.2 k d_e).1
    some (nonce ++ hdrs ++ padBytes ++ enc.1 ++ sig,
      NONCE_LEN + receivers.length * ENC_HEADER_LEN + padBytes.length + enc.2.1 +
        Schnorr.SIGNATURE_LEN)

/-- The observable outcomes of decrypt that are not a success: the
InvalidCiphertext error, an I/O error, and a panic of the process. -/
inductive DErr
  | invalidCiphertext
  | ioError
  | panicked
  deriving DecidableEq

/-- One iteration of the decrypt_header loop: while i < recv_count, read
an ENC_HEADER_LEN block (a short read is InvalidCiphertext), squeeze a
nonce and absorb the block regardless of whether a header has been found,
and try sres decryption only while none has; on success the decoded
header supplies the true receiver count.  Once i reaches recv_count,
absorb the padding and return the found header, or InvalidCiphertext if
none was. -/
def decrypt_header_step (d_r : Scalar) (q_s : Point) (d : Duplex)
    (stream : Bytes) (i recv_count : Nat)
    (found : Option (Point × Bytes × Nat)) :
    Except DErr (Point × Bytes × Duplex × Bytes) ⊕
      (Duplex × Bytes × Nat × Nat × Option (Point × Bytes × Nat)) :=
  if recv_count ≤ i then
    match found with
    | none => .inl (.error .invalidCiphertext)
    | some (eph, dek, pad) =>
      .inl (.ok (eph, dek, absorb_blocks d [stream.take pad], stream.drop pad))
  else if stream.length < ENC_HEADER_LEN then
    .inl (.error .invalidCiphertext)
  else
    let eh := stream.take ENC_HEADER_LEN
    let st := squeeze d NONCE_LEN
    let d2 := absorb st.2 eh
    match found with
    | some f => .inr (d2, stream.drop ENC_HEADER_LEN, i + 1, recv_count, some f)
    | none =>
      match sres_decrypt d_r q_s st.1 eh with
      | none => .inr (d2, stream.drop ENC_HEADER_LEN, i + 1, recv_count, none)
      | some (eph, hdr) =>
        let h := headerDecode hdr
        .inr (d2, stream.drop ENC_HEADER_LEN, i + 1, h.2.1,
          some (eph, h.1, h.2.2))

/-- The decrypt_header loop driver.  The fuel case 0 is unreachable:
every iteration consumes ENC_HEADER_LEN bytes of the stream, and the
initial fuel exceeds the stream length. -/
def decrypt_header_go (d_r : Scalar) (q_s : Point) :
    Nat → Duplex → Bytes → Nat → Nat → Option (Point × Bytes × Nat) →
    Except DErr (Point × Bytes × Duplex × Bytes)
  | 0, _, _, _, _, _ => .error .invalidCiphertext
  | fuel + 1, d, stream, i, recv_count, found =>
    match decrypt_header_step d_r q_s d stream i recv_count found with
    | .inl r => r
    | .inr (d2, s2, i2, rc2, found2) =>
      decrypt_header_go d_r q_s fuel d2 s2 i2 rc2 found2

/-- decrypt_header from src/veil/src/mres.rs: i starts at 0 and
recv_count at u64::MAX. -/
def decrypt_header (d_r : Scalar) (q_s : Point) (d : Duplex) (stream : Bytes) :
    Except DErr (Point × Bytes × Duplex × Bytes) :=
  decrypt_header_go d_r q_s (stream.length + 1) d stream 0 (2 ^ 64 - 1) none

/-- One iteration of the decrypt_message loop, in release-mode semantics.
The buffer holds buffered bytes carried over from the previous iteration
(initially none, the buffer starts zeroed); a read of n fresh bytes
refills it up to ENC_BLOCK_LEN + SIGNATURE_LEN.  On n = 0 the loop breaks
and the first SIGNATURE_LEN buffer bytes are the signature.  Otherwise
block_len is computed as n - SIGNATURE_LEN + offset, which in release
mode wraps around u64 when n + offset < SIGNATURE_LEN, and the resulting
out-of-bounds slice panics: the model returns the panicked outcome
exactly there. -/
def decrypt_message_step (d : Duplex) (buffered stream : Bytes) :
    Except DErr (Bytes × Nat × Bytes × Duplex) ⊕
      (Bytes × Duplex × Bytes × Bytes) :=
  let n := min (ENC_BLOCK_LEN + Schnorr.SIGNATURE_LEN - buffered.length)
    stream.length
  if n = 0 then
    .inl (.ok ([], 0,
      (buffered ++ List.replicate Schnorr.SIGNATURE_LEN 0).take
        Schnorr.SIGNATURE_LEN, d))
  else if buffered.length + n < Schnorr.SIGNATURE_LEN then
    .inl (.error .panicked)
  else
    let block_len := buffered.length + n - Schnorr.SIGNATURE_LEN
    let data := buffered ++ stream.take n
    match unseal_mut d (data.take block_len) with
    | (none, _) => .inl (.error .invalidCiphertext)
    | (some pt, d1) => .inr (pt, d1, data.drop block_len, stream.drop n)

/-- The decrypt_message loop driver.  The fuel case 0 is unreachable:
every iteration consumes at least one stream byte. -/
def decrypt_message_go : Nat → Duplex → Bytes → Bytes →
    Except DErr (Bytes × Nat × Bytes × Duplex)
  | 0, _, _, _ => .error .invalidCiphertext
  | fuel + 1, d, buffered, stream =>
    match decrypt_message_step d buffered stream with
    | .inl r => r
    | .inr (pt, d1, b2, s2) =>
      match decrypt_message_go fuel d1 b2 s2 with
      | .error e => .error e
      | .ok (out, w, sig, d2) => .ok (pt ++ out, pt.length + w, sig, d2)

/-- decrypt_message from src/veil/src/mres.rs in state-passing form. -/
def decrypt_message (d : Duplex) (stream : Bytes) :
    Except DErr (Bytes × Nat × Bytes × Duplex) :=
  decrypt_message_go (stream.length + 1) d [] stream

/-- decrypt from src/veil/src/mres.rs: absorb the sender public key, read
and absorb the nonce (a short read is an I/O error, not
InvalidCiphertext), scan for a header, absorb the DEK, key the duplex,
decrypt the message, and verify the signature over the final state. -/
def mres_decrypt (d_r : Scalar) (q_s : Point) (stream : Bytes) :
    Except DErr (Bytes × Nat) :=
  let m0 := absorb (newDuplex mresDomain) (encodePoint q_s)
  if stream.length < NONCE_LEN then .error .ioError
  else
    let m1 := absorb m0 (stream.take NONCE_LEN)
    match decrypt_header d_r q_s m1 (stream.drop NONCE_LEN) with
    | .error e => .error e
    | .ok (eph, dek, m2, rest) =>
      let m3 := into_keyed (absorb m2 dek)
      match decrypt_message m3 rest with
      | .error e => .error e
      | .ok (out, written, sig, m4) =>
        match (Schnorr.verify_protocol m4 eph sig).1 with
        | none => .error .invalidCiphertext
        | some _ => .ok (out, written)

end Mres

namespace Mres

/-- One-step unfolding of the decrypt_header loop driver. -/
theorem decrypt_header_go_succ (d_r : Scalar) (q_s : Point) (fuel : Nat)
    (d : Duplex) (stream : Bytes) (i rc : Nat)
    (found : Option (Point × Bytes × Nat)) :
    decrypt_header_go d_r q_s (fuel + 1) d stream i rc found =
      match decrypt_header_step d_r q_s d stream i rc found with
      | .inl r => r
      | .inr (d2, s2, i2, rc2, found2) =>
        decrypt_header_go d_r q_s fuel d2 s2 i2 rc2 found2 := rfl

/-- One-step unfolding of the decrypt_message loop driver. -/
theorem decrypt_message_go_succ (fuel : Nat) (d : Duplex)
    (buffered stream : Bytes) :
    decrypt_message_go (fuel + 1) d buffered stream =
      match decrypt_message_step d buffered stream with
      | .inl r => r
      | .inr (pt, d1, b2, s2) =>
        match decrypt_message_go fuel d1 b2 s2 with
        | .error e => .error e
        | .ok (out, w, sig, d2) =>
          .ok (pt ++ out, pt.length + w, sig, d2) := rfl

/-- One-step unfolding of the encrypt_message loop. -/
theorem encrypt_message_go_succ (fuel : Nat) (d : Duplex) (m : Bytes) :
    encrypt_message_go (fuel + 1) d m =
      (let st := seal_mut d (m.take BLOCK_LEN)
       if m.length < BLOCK_LEN then (st.1, st.1.length, st.2)
       else
         let rest := encrypt_message_go fuel st.2 (m.drop BLOCK_LEN)
         (st.1 ++ rest.1, st.1.length + rest.2.1, rest.2.2)) := rfl

end Mres

namespace Mres

/-- C4: refuted as stated — decrypt_message panics when the stream holds
more than zero but fewer than SIGNATURE_LEN bytes after the headers and
padding.  The first read then returns 0 < n < SIGNATURE_LEN bytes with an
empty carry buffer, and block_len = n - SIGNATURE_LEN + offset wraps
below zero; debug builds abort on the subtraction overflow and release
builds panic indexing the buffer out of bounds (src/veil/src/mres.rs
line 183). -/
theorem C4_decrypt_message_short_tail_panics (d : Duplex) (stream : Bytes)
    (hne : stream ≠ []) (hshort : stream.length < Schnorr.SIGNATURE_LEN) :
    decrypt_message d stream = Except.error DErr.panicked := by
  have hpos : 0 < stream.length := List.length_pos.mpr hne
  have hlt : stream.length < 64 := by
    have h64 : Schnorr.SIGNATURE_LEN = 64 := rfl
    omega
  have hstep : decrypt_message_step d [] stream = .inl (.error .panicked) := by
    unfold decrypt_message_step
    simp only []
    have hn : min (ENC_BLOCK_LEN + Schnorr.SIGNATURE_LEN - (List.length ([] : Bytes)))
        stream.length = stream.length := by
      simp only [List.length_nil, Nat.sub_zero]
      have : ENC_BLOCK_LEN + Schnorr.SIGNATURE_LEN = 32 * 1024 + 16 + 64 := rfl
      omega
    rw [hn]
    rw [if_neg (by omega)]
    rw [if_pos (by
      simp only [List.length_nil]
      have h64 : Schnorr.SIGNATURE_LEN = 64 := rfl
      omega)]
  unfold decrypt_message
  obtain ⟨fuel, hfuel⟩ : ∃ fuel, stream.length + 1 = fuel + 1 :=
    ⟨stream.length, rfl⟩
  rw [hfuel]
  unfold decrypt_message_go
  rw [hstep]

/-- Witness for C4 at a one-byte tail. -/
theorem C4_witness :
    ([0] : Bytes) ≠ [] ∧ ([0] : Bytes).length < Schnorr.SIGNATURE_LEN ∧
    decrypt_message (newDuplex mresDomain) [0] = Except.error DErr.panicked :=
  ⟨by decide, by decide,
    C4_decrypt_message_short_tail_panics (newDuplex mresDomain) [0]
      (by decide) (by decide)⟩

end Mres

namespace Mres

/-- With the identity point as sender public key every shared secret is
the identity, so sres decryption rejects every input. -/
theorem sres_decrypt_identity_sender (d_r : Scalar) (nonce ct : Bytes) :
    sres_decrypt d_r 0 nonce ct = none := by
  unfold sres_decrypt
  by_cases h : ct.length < POINT_LEN + TAG_LEN
  · rw [if_pos h]
  · rw [if_neg h]
    simp only []
    rw [if_pos (show smul d_r 0 = 0 from mul_zero d_r)]

/-- When sres decryption fails on every nonce and header block, the
decrypt_header loop consumes the whole stream and fails with
InvalidCiphertext (also when the stream ends before a full header). -/
theorem decrypt_header_go_none (d_r : Scalar) (q_s : Point)
    (hno : ∀ nonce eh, sres_decrypt d_r q_s nonce eh = none) :
    ∀ fuel, ∀ stream : Bytes, ∀ d i rc, stream.length < fuel →
      decrypt_header_go d_r q_s fuel d stream i rc none =
        Except.error DErr.invalidCiphertext := by
  intro fuel
  induction fuel with
  | zero => intro stream d i rc h; omega
  | succ fuel ih =>
    intro stream d i rc h
    rw [decrypt_header_go_succ]
    by_cases h1 : rc ≤ i
    · have hstep : decrypt_header_step d_r q_s d stream i rc none =
          .inl (.error .invalidCiphertext) := by
        unfold decrypt_header_step
        rw [if_pos h1]
      rw [hstep]
    · by_cases h2 : stream.length < ENC_HEADER_LEN
      · have hstep : decrypt_header_step d_r q_s d stream i rc none =
            .inl (.error .invalidCiphertext) := by
          unfold decrypt_header_step
          rw [if_neg h1, if_pos h2]
        rw [hstep]
      · have hstep : decrypt_header_step d_r q_s d stream i rc none =
            .inr (absorb (squeeze d NONCE_LEN).2 (stream.take ENC_HEADER_LEN),
              stream.drop ENC_HEADER_LEN, i + 1, rc, none) := by
          unfold decrypt_header_step
          rw [if_neg h1, if_neg h2]
          simp only []
          rw [hno]
        rw [hstep]
        refine ih _ _ _ _ ?_
        have h96 : ENC_HEADER_LEN = 96 := rfl
        have hd := List.length_drop ENC_HEADER_LEN stream
        omega

/-- C7: when no header decrypts for the receiver, decrypt fails with
InvalidCiphertext (not an I/O error), including when the stream ends
before a full ENC_HEADER_LEN header; and every scan iteration squeezes
the per-receiver nonce and absorbs the encrypted header regardless of
whether a header has already been found. -/
theorem C7_no_header_invalid_ciphertext (d_r : Scalar) (q_s : Point)
    (hno : ∀ nonce eh, sres_decrypt d_r q_s nonce eh = none) :
    (∀ stream : Bytes, NONCE_LEN ≤ stream.length →
      mres_decrypt d_r q_s stream = Except.error DErr.invalidCiphertext) ∧
    (∀ fuel d (stream : Bytes) i rc found, i < rc →
      ENC_HEADER_LEN ≤ stream.length →
      ∃ rc2 found2,
        decrypt_header_go d_r q_s (fuel + 1) d stream i rc found =
          decrypt_header_go d_r q_s fuel
            (absorb (squeeze d NONCE_LEN).2 (stream.take ENC_HEADER_LEN))
            (stream.drop ENC_HEADER_LEN) (i + 1) rc2 found2) := by
  constructor
  · intro stream hlen
    unfold mres_decrypt
    rw [if_neg (by omega)]
    have hhdr : decrypt_header d_r q_s
        (absorb (absorb (newDuplex mresDomain) (encodePoint q_s))
          (stream.take NONCE_LEN)) (stream.drop NONCE_LEN) =
        Except.error DErr.invalidCiphertext := by
      unfold decrypt_header
      exact decrypt_header_go_none d_r q_s hno _ _ _ _ _ (by omega)
    simp only []
    rw [hhdr]
  · intro fuel d stream i rc found h1 h2
    cases found with
    | none =>
      refine ⟨rc, none, ?_⟩
      rw [decrypt_header_go_succ]
      have hstep : decrypt_header_step d_r q_s d stream i rc none =
          .inr (absorb (squeeze d NONCE_LEN).2 (stream.take ENC_HEADER_LEN),
            stream.drop ENC_HEADER_LEN, i + 1, rc, none) := by
        unfold decrypt_header_step
        rw [if_neg (by omega), if_neg (by omega)]
        simp only []
        rw [hno]
      rw [hstep]
    | some f =>
      refine ⟨rc, some f, ?_⟩
      rw [decrypt_header_go_succ]
      have hstep : decrypt_header_step d_r q_s d stream i rc (some f) =
          .inr (absorb (squeeze d NONCE_LEN).2 (stream.take ENC_HEADER_LEN),
            stream.drop ENC_HEADER_LEN, i + 1, rc, some f) := by
        unfold decrypt_header_step
        rw [if_neg (by omega), if_neg (by omega)]
      rw [hstep]

/-- Witness for C7: the identity sender public key rejects every header,
so a nonce-only stream fails with InvalidCiphertext. -/
theorem C7_witness :
    (∀ nonce eh, sres_decrypt 1 0 nonce eh = none) ∧
    mres_decrypt 1 0 (List.replicate 16 0) =
      Except.error DErr.invalidCiphertext := by
  have hno : ∀ nonce eh, sres_decrypt 1 0 nonce eh = none :=
    fun nonce eh => sres_decrypt_identity_sender 1 nonce eh
  exact ⟨hno, (C7_no_header_invalid_ciphertext 1 0 hno).1
    (List.replicate 16 0) (by decide)⟩

end Mres

namespace Schnorr

/-- A signature is always SIGNATURE_LEN bytes: an encrypted commitment
point and an encrypted proof scalar of 32 bytes each. -/
theorem sign_protocol_length (p : Duplex) (k d : Scalar) :
    ((sign_protocol p k d).1).length = SIGNATURE_LEN := by
  unfold sign_protocol
  simp only [duplexEnc]
  simp [encodePoint_length, encodeScalar_length, SIGNATURE_LEN, POINT_LEN,
    SCALAR_LEN]

end Schnorr

namespace Mres

/-- sres encryption succeeds whenever both shared secrets are nonzero. -/
theorem sres_encrypt_some {d_s d_e : Scalar} {q_r : Point}
    (h1 : smul d_s q_r ≠ 0) (h2 : smul d_e q_r ≠ 0) (nonce pt : Bytes) :
    ∃ ct, sres_encrypt d_s d_e q_r nonce pt = some ct := by
  unfold sres_encrypt
  simp only [if_neg h1, if_neg h2, duplexEnc]
  exact ⟨_, rfl⟩

/-- On receivers with nonzero shared secrets the header loop succeeds and
emits receivers.length encrypted headers of ENC_HEADER_LEN bytes each. -/
theorem mres_headers_spec (d_s d_e : Scalar) {header : Bytes}
    (hh : header.length = HEADER_LEN) :
    ∀ (receivers : List Point), (∀ q ∈ receivers, smul d_s q ≠ 0) →
      (∀ q ∈ receivers, smul d_e q ≠ 0) →
      ∀ d0 : Duplex, ∃ hdrs d1,
        mres_headers d_s d_e header d0 receivers = some (hdrs, d1) ∧
        hdrs.length = receivers.length * ENC_HEADER_LEN := by
  intro receivers
  induction receivers with
  | nil =>
    intro _ _ d0
    exact ⟨[], d0, rfl, by simp⟩
  | cons q rest ih =>
    intro hs he d0
    obtain ⟨eh, heh⟩ := sres_encrypt_some (hs q (by simp)) (he q (by simp))
      (squeeze d0 NONCE_LEN).1 header
    have hlen : eh.length = ENC_HEADER_LEN := by
      have h1 := sres_encrypt_length heh
      rw [h1, hh]
      rfl
    obtain ⟨hdrs, d1, hrec, hrlen⟩ := ih (fun p hp => hs p (by simp [hp]))
      (fun p hp => he p (by simp [hp])) (absorb (squeeze d0 NONCE_LEN).2 eh)
    refine ⟨eh ++ hdrs, d1, ?_, ?_⟩
    · unfold mres_headers
      simp only []
      rw [heh, Option.some_bind, hrec, Option.map_some']
    · simp only [List.length_append, List.length_cons, hlen, hrlen]
      ring

/-- Written counts, lengths, and the block shape of the sealed message
body: full ENC_BLOCK_LEN blocks followed by one final short block of
(m.length mod BLOCK_LEN) + TAG_LEN bytes. -/
theorem encrypt_message_go_spec :
    ∀ fuel (m : Bytes) (d : Duplex), m.length / BLOCK_LEN + 1 ≤ fuel →
      (encrypt_message_go fuel d m).2.1 = (encrypt_message_go fuel d m).1.length ∧
      (encrypt_message_go fuel d m).1.length =
        m.length + (m.length / BLOCK_LEN + 1) * TAG_LEN ∧
      ∃ (blocks : List Bytes) (last : Bytes),
        (encrypt_message_go fuel d m).1 = blocks.flatten ++ last ∧
        blocks.length = m.length / BLOCK_LEN ∧
        (∀ b ∈ blocks, b.length = ENC_BLOCK_LEN) ∧
        last.length = m.length % BLOCK_LEN + TAG_LEN := by
  intro fuel
  induction fuel with
  | zero => intro m d h; exact (Nat.not_succ_le_zero _ h).elim
  | succ fuel ih =>
    intro m d h
    rw [encrypt_message_go_succ]
    simp only []
    by_cases hm : m.length < BLOCK_LEN
    · rw [if_pos hm]
      have htake : m.take BLOCK_LEN = m := List.take_of_length_le (le_of_lt hm)
      have hdiv : m.length / BLOCK_LEN = 0 := Nat.div_eq_of_lt hm
      have hmod : m.length % BLOCK_LEN = m.length := Nat.mod_eq_of_lt hm
      refine ⟨rfl, ?_, [], (seal_mut d (m.take BLOCK_LEN)).1,
        by simp, by simp [hdiv], by simp, ?_⟩
      · rw [seal_length, htake, hdiv]
        ring
      · rw [seal_length, htake, hmod]
    · rw [if_neg hm]
      have hB : (32768 : Nat) ≤ m.length := by
        have : BLOCK_LEN = 32768 := rfl
        omega
      have hst1 : ((seal_mut d (m.take BLOCK_LEN)).1).length = ENC_BLOCK_LEN := by
        rw [seal_length, List.length_take]
        have h1 : BLOCK_LEN = 32768 := rfl
        have h2 : ENC_BLOCK_LEN = 32784 := rfl
        have h3 : TAG_LEN = 16 := rfl
        omega
      have hdlen : (m.drop BLOCK_LEN).length = m.length - 32768 := by
        rw [List.length_drop]
        rfl
      have hfuel : (m.drop BLOCK_LEN).length / BLOCK_LEN + 1 ≤ fuel := by
        rw [hdlen]
        have h1 : BLOCK_LEN = 32768 := rfl
        rw [h1] at h ⊢
        omega
      obtain ⟨hw, hl, blocks, last, hb, hbl, hbe, hll⟩ :=
        ih (m.drop BLOCK_LEN) (seal_mut d (m.take BLOCK_LEN)).2 hfuel
      refine ⟨?_, ?_, (seal_mut d (m.take BLOCK_LEN)).1 :: blocks, last,
        ?_, ?_, ?_, ?_⟩
      · simp only [List.length_append, hw]
      · simp only [List.length_append, hst1, hl, hdlen]
        have h1 : BLOCK_LEN = 32768 := rfl
        have h2 : ENC_BLOCK_LEN = 32784 := rfl
        have h3 : TAG_LEN = 16 := rfl
        rw [h1, h2, h3]
        omega
      · rw [List.flatten_cons, List.append_assoc, hb]
      · simp only [List.length_cons, hbl, hdlen]
        have h1 : BLOCK_LEN = 32768 := rfl
        rw [h1]
        omega
      · intro b hbmem
        rcases List.mem_cons.mp hbmem with hb1 | hb2
        · rw [hb1, hst1]
        · exact hbe b hb2
      · rw [hll, hdlen]
        have h1 : BLOCK_LEN = 32768 := rfl
        rw [h1]
        omega

end Mres

namespace Mres

/-- C2: encrypt writes and returns exactly NONCE_LEN plus
receivers*ENC_HEADER_LEN plus padding plus the plaintext length plus one
TAG_LEN per block (including the final short block) plus SIGNATURE_LEN
bytes, and the sealed body is floor(n/BLOCK_LEN) full ENC_BLOCK_LEN
blocks followed by exactly one final sealed block of n mod BLOCK_LEN +
TAG_LEN bytes (a tag-only block when BLOCK_LEN divides n, including
n = 0). -/
theorem C2_encrypt_exact_length (d_s d_e k : Scalar)
    (dek nonce padBytes : Bytes) (receivers : List Point) (padding : Nat)
    (m : Bytes)
    (hdek : dek.length = DEK_LEN) (hnonce : nonce.length = NONCE_LEN)
    (hplen : padBytes.length = padding)
    (hrc : receivers.length < 2 ^ 64) (hpad : padding < 2 ^ 64)
    (hs : ∀ q ∈ receivers, smul d_s q ≠ 0)
    (he : ∀ q ∈ receivers, smul d_e q ≠ 0) :
    ∃ ct written,
      mres_encrypt d_s d_e k dek nonce padBytes receivers padding m =
        some (ct, written) ∧
      ct.length = written ∧
      written = NONCE_LEN + receivers.length * ENC_HEADER_LEN + padding +
        m.length + (m.length / BLOCK_LEN + 1) * TAG_LEN +
        Schnorr.SIGNATURE_LEN ∧
      ∃ (hdrs body sig : Bytes) (blocks : List Bytes) (last : Bytes),
        ct = nonce ++ hdrs ++ padBytes ++ body ++ sig ∧
        hdrs.length = receivers.length * ENC_HEADER_LEN ∧
        sig.length = Schnorr.SIGNATURE_LEN ∧
        body = blocks.flatten ++ last ∧
        blocks.length = m.length / BLOCK_LEN ∧
        (∀ b ∈ blocks, b.length = ENC_BLOCK_LEN) ∧
        last.length = m.length % BLOCK_LEN + TAG_LEN := by
  have hh : (headerEncode dek receivers.length padding).length = HEADER_LEN :=
    headerEncode_length hdek hrc hpad
  obtain ⟨hdrs, d1, hhdrs, hhlen⟩ := mres_headers_spec d_s d_e hh receivers hs he
    (absorb (absorb (newDuplex mresDomain) (encodePoint (mulgen d_s))) nonce)
  obtain ⟨hw, hl, blocks, last, hb, hbl, hbe, hll⟩ :=
    encrypt_message_go_spec (m.length / BLOCK_LEN + 1) m
      (into_keyed (absorb (absorb_blocks d1 [padBytes]) dek)) (le_refl _)
  have hw2 : (encrypt_message
      (into_keyed (absorb (absorb_blocks d1 [padBytes]) dek)) m).2.1 =
      (encrypt_message
        (into_keyed (absorb (absorb_blocks d1 [padBytes]) dek)) m).1.length := hw
  have hl2 : (encrypt_message
      (into_keyed (absorb (absorb_blocks d1 [padBytes]) dek)) m).1.length =
      m.length + (m.length / BLOCK_LEN + 1) * TAG_LEN := hl
  have hb2 : (encrypt_message
      (into_keyed (absorb (absorb_blocks d1 [padBytes]) dek)) m).1 =
      blocks.flatten ++ last := hb
  have hsig : ((Schnorr.sign_protocol (encrypt_message
      (into_keyed (absorb (absorb_blocks d1 [padBytes]) dek)) m).2.2 k d_e).1).length =
      Schnorr.SIGNATURE_LEN := Schnorr.sign_protocol_length _ k d_e
  have henc : mres_encrypt d_s d_e k dek nonce padBytes receivers padding m =
      some (nonce ++ hdrs ++ padBytes ++
          (encrypt_message (into_keyed (absorb (absorb_blocks d1 [padBytes]) dek)) m).1 ++
          (Schnorr.sign_protocol (encrypt_message
            (into_keyed (absorb (absorb_blocks d1 [padBytes]) dek)) m).2.2 k d_e).1,
        NONCE_LEN + receivers.length * ENC_HEADER_LEN + padBytes.length +
          (encrypt_message (into_keyed (absorb (absorb_blocks d1 [padBytes]) dek)) m).2.1 +
          Schnorr.SIGNATURE_LEN) := by
    unfold mres_encrypt
    simp only []
    rw [hhdrs]
  refine ⟨_, _, henc, ?_, ?_, hdrs,
    (encrypt_message (into_keyed (absorb (absorb_blocks d1 [padBytes]) dek)) m).1,
    (Schnorr.sign_protocol (encrypt_message
      (into_keyed (absorb (absorb_blocks d1 [padBytes]) dek)) m).2.2 k d_e).1,
    blocks, last, rfl, hhlen, hsig, hb2, hbl, hbe, hll⟩
  · simp only [List.length_append, hnonce, hhlen, hsig, hw2]
  · rw [hw2, hl2, hplen]
    have h3 : TAG_LEN = 16 := rfl
    rw [h3]
    omega

/-- Witness for C2 at the empty receiver list, empty message, and zero
padding. -/
theorem C2_witness :
    (List.replicate 32 0 : Bytes).length = DEK_LEN ∧
    (List.replicate 16 0 : Bytes).length = NONCE_LEN ∧
    ([] : Bytes).length = 0 ∧
    ([] : List Point).length < 2 ^ 64 ∧ (0 : Nat) < 2 ^ 64 ∧
    (∃ ct written,
      mres_encrypt 1 1 1 (List.replicate 32 0) (List.replicate 16 0) []
          [] 0 [] = some (ct, written) ∧
      ct.length = written ∧
      written = NONCE_LEN + ([] : List Point).length * ENC_HEADER_LEN + 0 +
        ([] : Bytes).length + (([] : Bytes).length / BLOCK_LEN + 1) * TAG_LEN +
        Schnorr.SIGNATURE_LEN ∧
      ∃ (hdrs body sig : Bytes) (blocks : List Bytes) (last : Bytes),
        ct = List.replicate 16 0 ++ hdrs ++ [] ++ body ++ sig ∧
        hdrs.length = ([] : List Point).length * ENC_HEADER_LEN ∧
        sig.length = Schnorr.SIGNATURE_LEN ∧
        body = blocks.flatten ++ last ∧
        blocks.length = ([] : Bytes).length / BLOCK_LEN ∧
        (∀ b ∈ blocks, b.length = ENC_BLOCK_LEN) ∧
        last.length = ([] : Bytes).length % BLOCK_LEN + TAG_LEN) :=
  ⟨by decide, by decide, by decide, by decide, by decide,
    C2_encrypt_exact_length 1 1 1 (List.replicate 32 0) (List.replicate 16 0)
      [] [] 0 [] (by decide) (by decide) (by decide) (by decide) (by decide)
      (by simp) (by simp)⟩

end Mres

/-- Taking a prefix that covers the left part of an append. -/
theorem take_append_add (b s : Bytes) (k : Nat) :
    (b ++ s).take (b.length + k) = b ++ s.take k := by
  rw [List.take_append_eq_append_take, List.take_of_length_le (by omega)]
  congr 1
  congr 1
  omega

/-- Dropping a prefix that covers the left part of an append. -/
theorem drop_append_add (b s : Bytes) (k : Nat) :
    (b ++ s).drop (b.length + k) = s.drop k := by
  rw [List.drop_append_eq_append_drop, List.drop_of_length_le (by omega)]
  simp

namespace Mres

/-- encrypt_message on an undersized plaintext: a single sealed block. -/
theorem encrypt_message_small {m : Bytes} (hm : m.length < BLOCK_LEN) (d : Duplex) :
    encrypt_message d m =
      ((seal_mut d m).1, ((seal_mut d m).1).length, (seal_mut d m).2) := by
  unfold encrypt_message
  rw [Nat.div_eq_of_lt hm, encrypt_message_go_succ]
  simp only []
  rw [if_pos hm, List.take_of_length_le (le_of_lt hm)]

/-- encrypt_message on a full block: seal BLOCK_LEN bytes and continue on
the remainder. -/
theorem encrypt_message_step {m : Bytes} (hm : BLOCK_LEN ≤ m.length) (d : Duplex) :
    encrypt_message d m =
      ((seal_mut d (m.take BLOCK_LEN)).1 ++
        (encrypt_message (seal_mut d (m.take BLOCK_LEN)).2 (m.drop BLOCK_LEN)).1,
       (seal_mut d (m.take BLOCK_LEN)).1.length +
        (encrypt_message (seal_mut d (m.take BLOCK_LEN)).2 (m.drop BLOCK_LEN)).2.1,
       (encrypt_message (seal_mut d (m.take BLOCK_LEN)).2 (m.drop BLOCK_LEN)).2.2) := by
  have hd : m.length / BLOCK_LEN = (m.drop BLOCK_LEN).length / BLOCK_LEN + 1 := by
    rw [List.length_drop]
    have h1 : BLOCK_LEN = 32768 := rfl
    rw [h1] at hm ⊢
    omega
  have h1 : encrypt_message d m = encrypt_message_go
      ((m.drop BLOCK_LEN).length / BLOCK_LEN + 1 + 1) d m := by
    unfold encrypt_message
    rw [hd]
  rw [h1, encrypt_message_go_succ]
  simp only []
  rw [if_neg (not_lt_of_ge hm)]
  rfl

/-- The encrypt_message loop result does not depend on the fuel, as long
as the fuel covers the iteration count. -/
theorem encrypt_message_go_fuel :
    ∀ fuel (m : Bytes) (d : Duplex), m.length / BLOCK_LEN + 1 ≤ fuel →
      encrypt_message_go fuel d m = encrypt_message d m := by
  intro fuel
  induction fuel with
  | zero => intro m d h; exact (Nat.not_succ_le_zero _ h).elim
  | succ fuel ih =>
    intro m d h
    by_cases hm : m.length < BLOCK_LEN
    · unfold encrypt_message
      rw [Nat.div_eq_of_lt hm, encrypt_message_go_succ, encrypt_message_go_succ]
      simp only []
      rw [if_pos hm, if_pos hm]
    · have hB : BLOCK_LEN ≤ m.length := le_of_not_lt hm
      have hfd : (m.drop BLOCK_LEN).length / BLOCK_LEN + 1 ≤ fuel := by
        rw [List.length_drop]
        have h1 : BLOCK_LEN = 32768 := rfl
        rw [h1] at hB h ⊢
        omega
      rw [encrypt_message_go_succ]
      simp only []
      rw [if_neg hm,
        ih (m.drop BLOCK_LEN) (seal_mut d (m.take BLOCK_LEN)).2 hfd,
        encrypt_message_step hB d]

end Mres

namespace Mres

/-- The decrypt_message loop on the sealed final short block followed by
the signature: one read grabs the whole remainder, the block before the
final SIGNATURE_LEN bytes unseals to the plaintext, and the next read
returns 0 and yields the buffered signature. -/
theorem decrypt_message_go_small {m : Bytes} (hm : m.length < BLOCK_LEN)
    (d : Duplex) (sig buffered stream : Bytes) (fuel : Nat)
    (hsig : sig.length = Schnorr.SIGNATURE_LEN)
    (hbs : buffered ++ stream = (encrypt_message d m).1 ++ sig)
    (hbuf : buffered = [] ∨ buffered.length = Schnorr.SIGNATURE_LEN)
    (hfuel : stream.length < fuel) :
    decrypt_message_go fuel d buffered stream =
      Except.ok (m, m.length, sig, (encrypt_message d m).2.2) := by
  have hsl : ((seal_mut d m).1).length = m.length + 16 := by
    rw [seal_length]
    rfl
  have hE1 : (encrypt_message d m).1 = (seal_mut d m).1 := by
    rw [encrypt_message_small hm]
  have hE2 : (encrypt_message d m).2.2 = (seal_mut d m).2 := by
    rw [encrypt_message_small hm]
  have hbs2 : buffered ++ stream = (seal_mut d m).1 ++ sig := by
    rw [hbs, hE1]
  have hs64 : sig.length = 64 := hsig
  have hblen : buffered.length ≤ 64 := by
    rcases hbuf with h | h
    · subst h; decide
    · have h2 : buffered.length = 64 := h
      omega
  have hlen : buffered.length + stream.length = m.length + 16 + 64 := by
    have h1 := congrArg List.length hbs2
    simp only [List.length_append, hsl, hs64] at h1
    omega
  have hmB : m.length < 32768 := hm
  cases fuel with
  | zero => omega
  | succ f =>
    have hstep : decrypt_message_step d buffered stream =
        Sum.inr (m, (seal_mut d m).2, sig, []) := by
      unfold decrypt_message_step
      simp only []
      have hn : min (ENC_BLOCK_LEN + Schnorr.SIGNATURE_LEN - buffered.length)
          stream.length = stream.length := by
        have hEB : ENC_BLOCK_LEN + Schnorr.SIGNATURE_LEN = 32848 := rfl
        rw [hEB]
        omega
      rw [hn]
      rw [if_neg (by omega)]
      rw [if_neg (by
        have h64 : Schnorr.SIGNATURE_LEN = 64 := rfl
        omega)]
      rw [List.take_length, hbs2]
      have hidx : buffered.length + stream.length - Schnorr.SIGNATURE_LEN =
          ((seal_mut d m).1).length := by
        have h64 : Schnorr.SIGNATURE_LEN = 64 := rfl
        rw [h64, hsl]
        omega
      rw [hidx, List.take_left, List.drop_left, List.drop_length,
        unseal_seal d m]
    have h2 : decrypt_message_go (f + 1) d buffered stream =
        match decrypt_message_go f (seal_mut d m).2 sig [] with
        | .error e => .error e
        | .ok (out, w, sg, d2) => .ok (m ++ out, m.length + w, sg, d2) := by
      rw [decrypt_message_go_succ, hstep]
    have hnext : decrypt_message_go f (seal_mut d m).2 sig [] =
        Except.ok ([], 0, sig, (seal_mut d m).2) := by
      cases f with
      | zero => omega
      | succ f2 =>
        have hstep2 : decrypt_message_step (seal_mut d m).2 sig [] =
            Sum.inl (Except.ok ([], 0, sig, (seal_mut d m).2)) := by
          unfold decrypt_message_step
          simp only []
          simp only [List.length_nil, Nat.min_zero]
          rw [if_true]
          have htk : List.take Schnorr.SIGNATURE_LEN
              (sig ++ List.replicate Schnorr.SIGNATURE_LEN 0) = sig := by
            conv_lhs => rw [← hsig]
            exact List.take_left sig _
          rw [htk]
        rw [decrypt_message_go_succ, hstep2]
    rw [h2, hnext, hE2]
    simp
end Mres

namespace Mres

/-- The decrypt_message loop inverts the encrypt_message loop: on the
sealed body followed by a SIGNATURE_LEN signature it recovers the
plaintext, its length, the signature bytes, and the sealing state,
carrying exactly SIGNATURE_LEN bytes across iterations. -/
theorem decrypt_message_go_enc :
    ∀ (N : Nat) (m : Bytes), m.length ≤ N →
      ∀ (d : Duplex) (sig buffered stream : Bytes) (fuel : Nat),
        sig.length = Schnorr.SIGNATURE_LEN →
        buffered ++ stream = (encrypt_message d m).1 ++ sig →
        (buffered = [] ∨ buffered.length = Schnorr.SIGNATURE_LEN) →
        stream.length < fuel →
        decrypt_message_go fuel d buffered stream =
          Except.ok (m, m.length, sig, (encrypt_message d m).2.2) := by
  intro N
  induction N with
  | zero =>
    intro m hN d sig buffered stream fuel hsig hbs hbuf hfuel
    refine decrypt_message_go_small ?_ d sig buffered stream fuel hsig hbs hbuf hfuel
    have hBv : BLOCK_LEN = 32768 := rfl
    omega
  | succ N ih =>
    intro m hN d sig buffered stream fuel hsig hbs hbuf hfuel
    by_cases hm : m.length < BLOCK_LEN
    · exact decrypt_message_go_small hm d sig buffered stream fuel hsig hbs hbuf hfuel
    · have hB : BLOCK_LEN ≤ m.length := le_of_not_lt hm
      have hBv : BLOCK_LEN = 32768 := rfl
      have hEB : ENC_BLOCK_LEN = 32784 := rfl
      have hT : TAG_LEN = 16 := rfl
      have h64 : Schnorr.SIGNATURE_LEN = 64 := rfl
      have hs64 : sig.length = 64 := hsig
      have hB32 : (32768 : Nat) ≤ m.length := by omega
      have hblen : buffered.length ≤ 64 := by
        rcases hbuf with h | h
        · subst h; decide
        · have h2 : buffered.length = 64 := h
          omega
      have hst1 : ((seal_mut d (m.take BLOCK_LEN)).1).length = ENC_BLOCK_LEN := by
        rw [seal_length, List.length_take, hBv, hEB, hT]
        omega
      have hE := encrypt_message_step hB d
      have hE1 : (encrypt_message d m).1 =
          (seal_mut d (m.take BLOCK_LEN)).1 ++
            (encrypt_message (seal_mut d (m.take BLOCK_LEN)).2 (m.drop BLOCK_LEN)).1 := by
        rw [hE]
      have hE22 : (encrypt_message d m).2.2 =
          (encrypt_message (seal_mut d (m.take BLOCK_LEN)).2 (m.drop BLOCK_LEN)).2.2 := by
        rw [hE]
      have hbs3 : buffered ++ stream = (seal_mut d (m.take BLOCK_LEN)).1 ++
          ((encrypt_message (seal_mut d (m.take BLOCK_LEN)).2 (m.drop BLOCK_LEN)).1 ++ sig) := by
        rw [hbs, hE1, List.append_assoc]
      obtain ⟨-, hlE, -⟩ := encrypt_message_go_spec
        ((m.drop BLOCK_LEN).length / BLOCK_LEN + 1) (m.drop BLOCK_LEN)
        (seal_mut d (m.take BLOCK_LEN)).2 (le_refl _)
      have hlE2 : ((encrypt_message (seal_mut d (m.take BLOCK_LEN)).2
          (m.drop BLOCK_LEN)).1).length =
          (m.drop BLOCK_LEN).length +
            ((m.drop BLOCK_LEN).length / BLOCK_LEN + 1) * TAG_LEN := hlE
      have hE16 : 16 ≤ ((encrypt_message (seal_mut d (m.take BLOCK_LEN)).2
          (m.drop BLOCK_LEN)).1).length := by
        rw [hlE2]
        have hq : ((m.drop BLOCK_LEN).length / BLOCK_LEN + 1) * TAG_LEN =
            (m.drop BLOCK_LEN).length / BLOCK_LEN * 16 + 16 := by
          rw [hT]
          ring
        omega
      have hlenR : buffered.length + stream.length = ENC_BLOCK_LEN +
          (((encrypt_message (seal_mut d (m.take BLOCK_LEN)).2
            (m.drop BLOCK_LEN)).1).length + 64) := by
        have h1 := congrArg List.length hbs3
        simp only [List.length_append, hst1, hs64] at h1
        omega
      cases fuel with
      | zero => omega
      | succ f =>
        have hn : min (ENC_BLOCK_LEN + Schnorr.SIGNATURE_LEN - buffered.length)
            stream.length = ENC_BLOCK_LEN + 64 - buffered.length := by
          rw [hEB, h64]
          rw [hEB] at hlenR
          omega
        have hstep : decrypt_message_step d buffered stream =
            Sum.inr (m.take BLOCK_LEN, (seal_mut d (m.take BLOCK_LEN)).2,
              ((encrypt_message (seal_mut d (m.take BLOCK_LEN)).2
                (m.drop BLOCK_LEN)).1 ++ sig).take 64,
              stream.drop (ENC_BLOCK_LEN + 64 - buffered.length)) := by
          unfold decrypt_message_step
          simp only []
          rw [hn]
          rw [if_neg (by omega)]
          rw [if_neg (by omega)]
          have hidx : buffered.length + (ENC_BLOCK_LEN + 64 - buffered.length) -
              Schnorr.SIGNATURE_LEN = ENC_BLOCK_LEN := by
            omega
          rw [hidx]
          have hdata : buffered ++ stream.take (ENC_BLOCK_LEN + 64 - buffered.length) =
              ((seal_mut d (m.take BLOCK_LEN)).1 ++
                ((encrypt_message (seal_mut d (m.take BLOCK_LEN)).2
                  (m.drop BLOCK_LEN)).1 ++ sig)).take (ENC_BLOCK_LEN + 64) := by
            rw [← hbs3]
            have hsplit : ENC_BLOCK_LEN + 64 =
                buffered.length + (ENC_BLOCK_LEN + 64 - buffered.length) := by
              omega
            rw [hsplit, take_append_add]
            congr 2
            omega
          rw [hdata]
          rw [List.take_take]
          rw [Nat.min_eq_left (by omega)]
          have hblock : ((seal_mut d (m.take BLOCK_LEN)).1 ++
              ((encrypt_message (seal_mut d (m.take BLOCK_LEN)).2
                (m.drop BLOCK_LEN)).1 ++ sig)).take ENC_BLOCK_LEN =
              (seal_mut d (m.take BLOCK_LEN)).1 := by
            conv_lhs => rw [← hst1]
            exact List.take_left _ _
          have hdrop : (((seal_mut d (m.take BLOCK_LEN)).1 ++
              ((encrypt_message (seal_mut d (m.take BLOCK_LEN)).2
                (m.drop BLOCK_LEN)).1 ++ sig)).take (ENC_BLOCK_LEN + 64)).drop
                ENC_BLOCK_LEN =
              ((encrypt_message (seal_mut d (m.take BLOCK_LEN)).2
                (m.drop BLOCK_LEN)).1 ++ sig).take 64 := by
            rw [List.drop_take]
            rw [show ENC_BLOCK_LEN + 64 - ENC_BLOCK_LEN = 64 from by omega]
            congr 1
            conv_lhs => rw [← hst1]
            exact List.drop_left _ _
          rw [hblock, hdrop, unseal_seal d (m.take BLOCK_LEN)]
        have h2 : decrypt_message_go (f + 1) d buffered stream =
            match decrypt_message_go f (seal_mut d (m.take BLOCK_LEN)).2
                (((encrypt_message (seal_mut d (m.take BLOCK_LEN)).2
                  (m.drop BLOCK_LEN)).1 ++ sig).take 64)
                (stream.drop (ENC_BLOCK_LEN + 64 - buffered.length)) with
            | .error e => .error e
            | .ok (out, w, sg, d2) =>
              .ok (m.take BLOCK_LEN ++ out, (m.take BLOCK_LEN).length + w, sg, d2) := by
          rw [decrypt_message_go_succ, hstep]
        have hs2 : stream.drop (ENC_BLOCK_LEN + 64 - buffered.length) =
            ((encrypt_message (seal_mut d (m.take BLOCK_LEN)).2
              (m.drop BLOCK_LEN)).1 ++ sig).drop 64 := by
          have hstream : stream = ((seal_mut d (m.take BLOCK_LEN)).1 ++
              ((encrypt_message (seal_mut d (m.take BLOCK_LEN)).2
                (m.drop BLOCK_LEN)).1 ++ sig)).drop buffered.length := by
            have h1 := (List.drop_left buffered stream).symm
            rw [hbs3] at h1
            exact h1
          rw [hstream, List.drop_drop]
          rw [show buffered.length + (ENC_BLOCK_LEN + 64 - buffered.length) =
            ((seal_mut d (m.take BLOCK_LEN)).1).length + 64 from by rw [hst1]; omega]
          exact drop_append_add _ _ 64
        have hbss : (((encrypt_message (seal_mut d (m.take BLOCK_LEN)).2
            (m.drop BLOCK_LEN)).1 ++ sig).take 64) ++
            stream.drop (ENC_BLOCK_LEN + 64 - buffered.length) =
            (encrypt_message (seal_mut d (m.take BLOCK_LEN)).2
              (m.drop BLOCK_LEN)).1 ++ sig := by
          rw [hs2]
          exact List.take_append_drop 64 _
        have hbuf2 : (((encrypt_message (seal_mut d (m.take BLOCK_LEN)).2
            (m.drop BLOCK_LEN)).1 ++ sig).take 64).length =
            Schnorr.SIGNATURE_LEN := by
          rw [List.length_take, List.length_append, hs64, h64]
          omega
        have hfuel2 : (stream.drop (ENC_BLOCK_LEN + 64 - buffered.length)).length
            < f := by
          rw [List.length_drop]
          rw [hEB] at hlenR
          omega
        have hih := ih (m.drop BLOCK_LEN)
          (by rw [List.length_drop]; omega)
          (seal_mut d (m.take BLOCK_LEN)).2 sig
          (((encrypt_message (seal_mut d (m.take BLOCK_LEN)).2
            (m.drop BLOCK_LEN)).1 ++ sig).take 64)
          (stream.drop (ENC_BLOCK_LEN + 64 - buffered.length)) f
          hsig hbss (Or.inr hbuf2) hfuel2
        rw [h2, hih, hE22]
        have hml : (m.take BLOCK_LEN).length + (m.drop BLOCK_LEN).length =
            m.length := by
          rw [List.length_take, List.length_drop]
          omega
        simp only [List.take_append_drop, hml]

end Mres

namespace Mres

/-- The header loop on the empty receiver list. -/
theorem mres_headers_nil (d_s d_e : Scalar) (header : Bytes) (d0 : Duplex) :
    mres_headers d_s d_e header d0 [] = some ([], d0) := rfl

/-- One step of the header loop. -/
theorem mres_headers_cons (d_s d_e : Scalar) (header : Bytes) (d0 : Duplex)
    (q : Point) (rest : List Point) :
    mres_headers d_s d_e header d0 (q :: rest) =
      (sres_encrypt d_s d_e q (squeeze d0 NONCE_LEN).1 header).bind (fun eh =>
        (mres_headers d_s d_e header (absorb (squeeze d0 NONCE_LEN).2 eh) rest).map
          (fun r => (eh ++ r.1, r.2))) := rfl

/-- Scanning encrypted headers meant for other receivers: each iteration
squeezes the nonce, fails sres decryption, absorbs the header, and moves
on with the state in lockstep with the encrypting loop. -/
theorem scan_skip (d_r d_s d_e : Scalar) {header : Bytes}
    (hh : header.length = HEADER_LEN) :
    ∀ (pre : List Point), (∀ q ∈ pre, q ≠ mulgen d_r) →
      ∀ (d0 d1 : Duplex) (hdrs tail : Bytes) (i rc fuel : Nat),
        mres_headers d_s d_e header d0 pre = some (hdrs, d1) →
        i + pre.length ≤ rc →
        decrypt_header_go d_r (mulgen d_s) (fuel + pre.length) d0
          (hdrs ++ tail) i rc none =
        decrypt_header_go d_r (mulgen d_s) fuel d1 tail (i + pre.length) rc
          none := by
  intro pre
  induction pre with
  | nil =>
    intro _ d0 d1 hdrs tail i rc fuel hmh _
    rw [mres_headers_nil] at hmh
    obtain ⟨hh1, hh2⟩ := Prod.mk.inj (Option.some.inj hmh)
    rw [← hh1, ← hh2]
    simp only [List.length_nil, List.nil_append, Nat.add_zero]
  | cons q rest ihp =>
    intro hpre d0 d1 hdrs tail i rc fuel hmh hle
    simp only [List.length_cons] at hle ⊢
    rw [mres_headers_cons] at hmh
    cases heq : sres_encrypt d_s d_e q (squeeze d0 NONCE_LEN).1 header with
    | none =>
      rw [heq] at hmh
      exact absurd hmh (by simp)
    | some eh =>
      rw [heq, Option.some_bind] at hmh
      cases hrec : mres_headers d_s d_e header
          (absorb (squeeze d0 NONCE_LEN).2 eh) rest with
      | none =>
        rw [hrec] at hmh
        exact absurd hmh (by simp)
      | some pr =>
        obtain ⟨hdrs2, d2⟩ := pr
        rw [hrec, Option.map_some'] at hmh
        obtain ⟨hh1, hh2⟩ := Prod.mk.inj (Option.some.inj hmh)
        subst hh1
        subst hh2
        have hEH : ENC_HEADER_LEN = 96 := rfl
        have hehlen : eh.length = ENC_HEADER_LEN := by
          have h2 := sres_encrypt_length heq
          rw [h2, hh]
          rfl
        have htk : ((eh ++ hdrs2) ++ tail).take ENC_HEADER_LEN = eh := by
          rw [List.append_assoc]
          conv_lhs => rw [← hehlen]
          exact List.take_left _ _
        have hdr : ((eh ++ hdrs2) ++ tail).drop ENC_HEADER_LEN = hdrs2 ++ tail := by
          rw [List.append_assoc]
          conv_lhs => rw [← hehlen]
          exact List.drop_left _ _
        have hstep : decrypt_header_step d_r (mulgen d_s) d0
            ((eh ++ hdrs2) ++ tail) i rc none =
            Sum.inr (absorb (squeeze d0 NONCE_LEN).2 eh, hdrs2 ++ tail,
              i + 1, rc, none) := by
          unfold decrypt_header_step
          rw [if_neg (by omega)]
          rw [if_neg (by
            simp only [List.length_append]
            omega)]
          simp only []
          rw [htk, hdr]
          rw [sres_decrypt_wrong_receiver (hpre q (by simp)) heq]
        rw [show fuel + (rest.length + 1) = (fuel + rest.length) + 1 from rfl]
        rw [decrypt_header_go_succ, hstep]
        rw [show i + (rest.length + 1) = (i + 1) + rest.length from by omega]
        exact ihp (fun p hp => hpre p (by simp [hp]))
          (absorb (squeeze d0 NONCE_LEN).2 eh) d2 hdrs2 tail (i + 1) rc fuel
          hrec (by omega)

end Mres

namespace Mres

/-- Scanning the remaining encrypted headers after one has been found:
each iteration still squeezes the nonce and absorbs the header. -/
theorem scan_found (d_r d_s d_e : Scalar) (q_s : Point) {header : Bytes}
    (hh : header.length = HEADER_LEN) :
    ∀ (post : List Point) (d0 d1 : Duplex) (hdrs tail : Bytes)
      (i rc fuel : Nat) (f : Point × Bytes × Nat),
        mres_headers d_s d_e header d0 post = some (hdrs, d1) →
        i + post.length ≤ rc →
        decrypt_header_go d_r q_s (fuel + post.length) d0
          (hdrs ++ tail) i rc (some f) =
        decrypt_header_go d_r q_s fuel d1 tail (i + post.length) rc
          (some f) := by
  intro post
  induction post with
  | nil =>
    intro d0 d1 hdrs tail i rc fuel f hmh _
    rw [mres_headers_nil] at hmh
    obtain ⟨hh1, hh2⟩ := Prod.mk.inj (Option.some.inj hmh)
    rw [← hh1, ← hh2]
    simp only [List.length_nil, List.nil_append, Nat.add_zero]
  | cons q rest ihp =>
    intro d0 d1 hdrs tail i rc fuel f hmh hle
    simp only [List.length_cons] at hle ⊢
    rw [mres_headers_cons] at hmh
    cases heq : sres_encrypt d_s d_e q (squeeze d0 NONCE_LEN).1 header with
    | none =>
      rw [heq] at hmh
      exact absurd hmh (by simp)
    | some eh =>
      rw [heq, Option.some_bind] at hmh
      cases hrec : mres_headers d_s d_e header
          (absorb (squeeze d0 NONCE_LEN).2 eh) rest with
      | none =>
        rw [hrec] at hmh
        exact absurd hmh (by simp)
      | some pr =>
        obtain ⟨hdrs2, d2⟩ := pr
        rw [hrec, Option.map_some'] at hmh
        obtain ⟨hh1, hh2⟩ := Prod.mk.inj (Option.some.inj hmh)
        subst hh1
        subst hh2
        have hehlen : eh.length = ENC_HEADER_LEN := by
          have h2 := sres_encrypt_length heq
          rw [h2, hh]
          rfl
        have htk : ((eh ++ hdrs2) ++ tail).take ENC_HEADER_LEN = eh := by
          rw [List.append_assoc]
          conv_lhs => rw [← hehlen]
          exact List.take_left _ _
        have hdr : ((eh ++ hdrs2) ++ tail).drop ENC_HEADER_LEN = hdrs2 ++ tail := by
          rw [List.append_assoc]
          conv_lhs => rw [← hehlen]
          exact List.drop_left _ _
        have hstep : decrypt_header_step d_r q_s d0
            ((eh ++ hdrs2) ++ tail) i rc (some f) =
            Sum.inr (absorb (squeeze d0 NONCE_LEN).2 eh, hdrs2 ++ tail,
              i + 1, rc, some f) := by
          unfold decrypt_header_step
          rw [if_neg (by omega)]
          rw [if_neg (by
            simp only [List.length_append]
            have hEH : ENC_HEADER_LEN = 96 := rfl
            omega)]
          simp only []
          rw [htk, hdr]
        rw [show fuel + (rest.length + 1) = (fuel + rest.length) + 1 from rfl]
        rw [decrypt_header_go_succ, hstep]
        rw [show i + (rest.length + 1) = (i + 1) + rest.length from by omega]
        exact ihp (absorb (squeeze d0 NONCE_LEN).2 eh) d2 hdrs2 tail (i + 1)
          rc fuel f hrec (by omega)

end Mres

namespace Mres

/-- The header loop over an appended receiver list is the composition of
the loops. -/
theorem mres_headers_append (d_s d_e : Scalar) (header : Bytes) :
    ∀ (l1 l2 : List Point) (d0 : Duplex),
      mres_headers d_s d_e header d0 (l1 ++ l2) =
        (mres_headers d_s d_e header d0 l1).bind (fun r =>
          (mres_headers d_s d_e header r.2 l2).map
            (fun r2 => (r.1 ++ r2.1, r2.2))) := by
  intro l1
  induction l1 with
  | nil =>
    intro l2 d0
    rw [List.nil_append, mres_headers_nil, Option.some_bind]
    cases h : mres_headers d_s d_e header d0 l2 with
    | none => rfl
    | some pr =>
      rw [Option.map_some']
      simp
  | cons q rest ih =>
    intro l2 d0
    rw [List.cons_append, mres_headers_cons, mres_headers_cons]
    cases heq : sres_encrypt d_s d_e q (squeeze d0 NONCE_LEN).1 header with
    | none => simp
    | some eh =>
      simp only [Option.some_bind]
      rw [ih]
      cases hrec : mres_headers d_s d_e header
          (absorb (squeeze d0 NONCE_LEN).2 eh) rest with
      | none => simp
      | some pr =>
        simp only [Option.some_bind, Option.map_some']
        cases h2 : mres_headers d_s d_e header pr.2 l2 with
        | none => simp
        | some pr2 =>
          simp only [Option.some_bind, Option.map_some']
          simp [List.append_assoc]

/-- The concatenated encrypted headers are receivers.length blocks of
ENC_HEADER_LEN bytes. -/
theorem mres_headers_length (d_s d_e : Scalar) {header : Bytes}
    (hh : header.length = HEADER_LEN) :
    ∀ (receivers : List Point) (d0 d1 : Duplex) (hdrs : Bytes),
      mres_headers d_s d_e header d0 receivers = some (hdrs, d1) →
      hdrs.length = receivers.length * ENC_HEADER_LEN := by
  intro receivers
  induction receivers with
  | nil =>
    intro d0 d1 hdrs hmh
    rw [mres_headers_nil] at hmh
    obtain ⟨hh1, hh2⟩ := Prod.mk.inj (Option.some.inj hmh)
    rw [← hh1]
    simp
  | cons q rest ih =>
    intro d0 d1 hdrs hmh
    rw [mres_headers_cons] at hmh
    cases heq : sres_encrypt d_s d_e q (squeeze d0 NONCE_LEN).1 header with
    | none =>
      rw [heq] at hmh
      exact absurd hmh (by simp)
    | some eh =>
      rw [heq, Option.some_bind] at hmh
      cases hrec : mres_headers d_s d_e header
          (absorb (squeeze d0 NONCE_LEN).2 eh) rest with
      | none =>
        rw [hrec] at hmh
        exact absurd hmh (by simp)
      | some pr =>
        obtain ⟨hdrs2, d2⟩ := pr
        rw [hrec, Option.map_some'] at hmh
        obtain ⟨hh1, hh2⟩ := Prod.mk.inj (Option.some.inj hmh)
        rw [← hh1]
        have hehlen : eh.length = ENC_HEADER_LEN := by
          have h2 := sres_encrypt_length heq
          rw [h2, hh]
          rfl
        have h3 := ih _ _ _ hrec
        simp only [List.length_append, List.length_cons, hehlen, h3]
        ring

end Mres

namespace Mres

/-- decrypt_header inverts the header encryption loop: scanning the
stream written by encrypt, the receiver skips the headers meant for
earlier receivers, decrypts its own, keeps scanning with the decoded
receiver count, and finally absorbs the padding, ending in lockstep with
the encrypting duplex. -/
theorem decrypt_header_enc (d_r d_s d_e : Scalar) (dek padBytes rest : Bytes)
    (pre post : List Point) (padding : Nat)
    (hdek : dek.length = DEK_LEN)
    (hpre : ∀ q ∈ pre, q ≠ mulgen d_r)
    (hrc : (pre ++ mulgen d_r :: post).length < 2 ^ 64)
    (hpad : padding < 2 ^ 64)
    (hplen : padBytes.length = padding)
    (hs1 : smul d_s (mulgen d_r) ≠ 0)
    (he2 : smul d_e (mulgen d_r) ≠ 0)
    (he : d_e ≠ 0)
    (d0 d1 : Duplex) (hdrs : Bytes)
    (hmh : mres_headers d_s d_e
      (headerEncode dek (pre ++ mulgen d_r :: post).length padding) d0
      (pre ++ mulgen d_r :: post) = some (hdrs, d1)) :
    decrypt_header d_r (mulgen d_s) d0 (hdrs ++ (padBytes ++ rest)) =
      Except.ok (mulgen d_e, dek, absorb_blocks d1 [padBytes], rest) := by
  have hEH : ENC_HEADER_LEN = 96 := rfl
  have hrlen : (pre ++ mulgen d_r :: post).length =
      pre.length + post.length + 1 := by
    simp only [List.length_append, List.length_cons]
    omega
  have hh : (headerEncode dek (pre ++ mulgen d_r :: post).length padding).length
      = HEADER_LEN := headerEncode_length hdek hrc hpad
  have hhl : hdrs.length =
      (pre ++ mulgen d_r :: post).length * ENC_HEADER_LEN :=
    mres_headers_length d_s d_e hh _ d0 d1 hdrs hmh
  rw [mres_headers_append] at hmh
  cases h1 : mres_headers d_s d_e
      (headerEncode dek (pre ++ mulgen d_r :: post).length padding) d0 pre with
  | none =>
    rw [h1] at hmh
    exact absurd hmh (by simp)
  | some pr1 =>
    obtain ⟨hp, dt⟩ := pr1
    rw [h1, Option.some_bind] at hmh
    cases h2 : mres_headers d_s d_e
        (headerEncode dek (pre ++ mulgen d_r :: post).length padding) dt
        (mulgen d_r :: post) with
    | none =>
      rw [h2] at hmh
      exact absurd hmh (by simp)
    | some pr2 =>
      obtain ⟨h2s, d1p⟩ := pr2
      rw [h2, Option.map_some'] at hmh
      obtain ⟨hh1, hh2⟩ := Prod.mk.inj (Option.some.inj hmh)
      rw [mres_headers_cons] at h2
      cases heq : sres_encrypt d_s d_e (mulgen d_r)
          (squeeze dt NONCE_LEN).1
          (headerEncode dek (pre ++ mulgen d_r :: post).length padding) with
      | none =>
        rw [heq] at h2
        exact absurd h2 (by simp)
      | some eh =>
        rw [heq, Option.some_bind] at h2
        cases h3 : mres_headers d_s d_e
            (headerEncode dek (pre ++ mulgen d_r :: post).length padding)
            (absorb (squeeze dt NONCE_LEN).2 eh) post with
        | none =>
          rw [h3] at h2
          exact absurd h2 (by simp)
        | some pr3 =>
          obtain ⟨hpost, d1f⟩ := pr3
          rw [h3, Option.map_some'] at h2
          obtain ⟨hc1, hc2⟩ := Prod.mk.inj (Option.some.inj h2)
          have hd1 : d1f = d1 := hc2.trans hh2
          rw [hd1] at h3
          have hehlen : eh.length = ENC_HEADER_LEN := by
            have h4 := sres_encrypt_length heq
            rw [h4, hh]
            rfl
          have hstream : hdrs ++ (padBytes ++ rest) =
              hp ++ (eh ++ (hpost ++ (padBytes ++ rest))) := by
            rw [← hh1, ← hc1]
            simp [List.append_assoc]
          obtain ⟨ct, hcte, -, hctd⟩ := sres_round_trip hs1 he2 he
            (squeeze dt NONCE_LEN).1
            (headerEncode dek (pre ++ mulgen d_r :: post).length padding)
          have hcteh : ct = eh := Option.some.inj (hcte.symm.trans heq)
          have hdec : sres_decrypt d_r (mulgen d_s) (squeeze dt NONCE_LEN).1 eh =
              some (mulgen d_e,
                headerEncode dek (pre ++ mulgen d_r :: post).length padding) := by
            rw [← hcteh]
            exact hctd
          have hdecode : headerDecode
              (headerEncode dek (pre ++ mulgen d_r :: post).length padding) =
              (dek, (pre ++ mulgen d_r :: post).length, padding) :=
            headerDecode_encode hdek hrc hpad
          unfold decrypt_header
          have hS : (hdrs ++ (padBytes ++ rest)).length =
              hdrs.length + (padBytes.length + rest.length) := by
            simp [List.length_append]
          have h5 : pre.length + post.length + 1 ≤
              (hdrs ++ (padBytes ++ rest)).length := by
            have h6 : (hdrs ++ (padBytes ++ rest)).length =
                hdrs.length + (padBytes.length + rest.length) := by
              simp
            have h7 : hdrs.length = (pre.length + post.length + 1) * 96 := by
              rw [hhl, hEH, hrlen]
            omega
          have hfe : ∀ X p t : Nat, p + t + 1 ≤ X →
              X + 1 = (((X - p - t - 1 + 1) + t) + 1) + p := by
            intro X p t h6
            omega
          rw [hstream]
          have h5b : pre.length + post.length + 1 ≤
              (hp ++ (eh ++ (hpost ++ (padBytes ++ rest)))).length := by
            rw [← hstream]
            exact h5
          rw [hfe (hp ++ (eh ++ (hpost ++ (padBytes ++ rest)))).length
            pre.length post.length h5b]
          rw [scan_skip d_r d_s d_e hh pre hpre d0 dt hp
            (eh ++ (hpost ++ (padBytes ++ rest))) 0 (2 ^ 64 - 1)
            ((((hp ++ (eh ++ (hpost ++ (padBytes ++ rest)))).length - pre.length -
              post.length - 1 + 1) + post.length) + 1) h1
            (by rw [hrlen] at hrc; omega)]
          rw [Nat.zero_add]
          have hstephit : decrypt_header_step d_r (mulgen d_s) dt
              (eh ++ (hpost ++ (padBytes ++ rest))) pre.length (2 ^ 64 - 1)
              none =
              Sum.inr (absorb (squeeze dt NONCE_LEN).2 eh,
                hpost ++ (padBytes ++ rest), pre.length + 1,
                (pre ++ mulgen d_r :: post).length,
                some (mulgen d_e, dek, padding)) := by
            unfold decrypt_header_step
            rw [if_neg (by rw [hrlen] at hrc; omega)]
            rw [if_neg (by
              simp only [List.length_append]
              omega)]
            simp only []
            have htk : (eh ++ (hpost ++ (padBytes ++ rest))).take
                ENC_HEADER_LEN = eh := by
              conv_lhs => rw [← hehlen]
              exact List.take_left _ _
            have hdr2 : (eh ++ (hpost ++ (padBytes ++ rest))).drop
                ENC_HEADER_LEN = hpost ++ (padBytes ++ rest) := by
              conv_lhs => rw [← hehlen]
              exact List.drop_left _ _
            rw [htk, hdr2, hdec]
            simp only []
            rw [hdecode]
          have hfold : decrypt_header_go d_r (mulgen d_s)
              ((((hp ++ (eh ++ (hpost ++ (padBytes ++ rest)))).length -
                pre.length - post.length - 1 + 1) + post.length) + 1) dt
              (eh ++ (hpost ++ (padBytes ++ rest))) pre.length (2 ^ 64 - 1)
              none =
              decrypt_header_go d_r (mulgen d_s)
              (((hp ++ (eh ++ (hpost ++ (padBytes ++ rest)))).length -
                pre.length - post.length - 1 + 1) + post.length)
              (absorb (squeeze dt NONCE_LEN).2 eh) (hpost ++ (padBytes ++ rest))
              (pre.length + 1) (pre ++ mulgen d_r :: post).length
              (some (mulgen d_e, dek, padding)) := by
            rw [decrypt_header_go_succ, hstephit]
          rw [hfold]
          rw [scan_found d_r d_s d_e (mulgen d_s) hh post
            (absorb (squeeze dt NONCE_LEN).2 eh) d1 hpost (padBytes ++ rest)
            (pre.length + 1) (pre ++ mulgen d_r :: post).length
            (((hp ++ (eh ++ (hpost ++ (padBytes ++ rest)))).length - pre.length -
              post.length - 1 + 1))
            (mulgen d_e, dek, padding) h3 (by rw [hrlen]; omega)]
          rw [show pre.length + 1 + post.length =
            (pre ++ mulgen d_r :: post).length from by rw [hrlen]; omega]

          rw [decrypt_header_go_succ]
          have hstepexit : decrypt_header_step d_r (mulgen d_s) d1
              (padBytes ++ rest) (pre ++ mulgen d_r :: post).length
              (pre ++ mulgen d_r :: post).length
              (some (mulgen d_e, dek, padding)) =
              Sum.inl (Except.ok (mulgen d_e, dek,
                absorb_blocks d1 [(padBytes ++ rest).take padding],
                (padBytes ++ rest).drop padding)) := by
            unfold decrypt_header_step
            rw [if_pos (le_refl _)]
          rw [hstepexit]
          have htp : (padBytes ++ rest).take padding = padBytes := by
            rw [← hplen]
            exact List.take_left _ _
          have hdp : (padBytes ++ rest).drop padding = rest := by
            rw [← hplen]
            exact List.drop_left _ _
          rw [htp, hdp]

end Mres

namespace Mres

/-- Splitting a list at the first occurrence of an element. -/
theorem mem_first_split {a : Point} :
    ∀ {l : List Point}, a ∈ l →
      ∃ s t, l = s ++ a :: t ∧ ∀ x ∈ s, x ≠ a := by
  intro l
  induction l with
  | nil => intro h; exact absurd h (List.not_mem_nil a)
  | cons b rest ih =>
    intro h
    by_cases hb : b = a
    · exact ⟨[], rest, by rw [hb]; rfl, by simp⟩
    · have hmem : a ∈ rest := by
        rcases List.mem_cons.mp h with h1 | h2
        · exact absurd h1.symm hb
        · exact h2
      obtain ⟨s, t, hst, hne⟩ := ih hmem
      refine ⟨b :: s, t, by rw [hst, List.cons_append], ?_⟩
      intro x hx
      rcases List.mem_cons.mp hx with h1 | h2
      · rw [h1]; exact hb
      · exact hne x h2

/-- C1: decrypt inverts encrypt.  For every plaintext, sender key pair,
hedged ephemeral scalar, DEK, nonce, padding bytes, and receiver list
containing the receiver public key (with all shared secrets nonzero),
encrypt succeeds, returns exactly the number of ciphertext bytes written,
and decrypt with the receiver private key and the sender public key
returns exactly the plaintext and its byte count. -/
theorem C1_mres_round_trip (d_s d_e k d_r : Scalar)
    (dek nonce padBytes : Bytes) (receivers : List Point) (padding : Nat)
    (m : Bytes)
    (hdek : dek.length = DEK_LEN) (hnonce : nonce.length = NONCE_LEN)
    (hplen : padBytes.length = padding)
    (hrc : receivers.length < 2 ^ 64) (hpad : padding < 2 ^ 64)
    (hmem : mulgen d_r ∈ receivers)
    (hs : ∀ q ∈ receivers, smul d_s q ≠ 0)
    (he : ∀ q ∈ receivers, smul d_e q ≠ 0)
    (hde : d_e ≠ 0) :
    ∃ ct written,
      mres_encrypt d_s d_e k dek nonce padBytes receivers padding m =
        some (ct, written) ∧
      ct.length = written ∧
      mres_decrypt d_r (mulgen d_s) ct = Except.ok (m, m.length) := by
  obtain ⟨pre, post, hsplit, hprene⟩ := mem_first_split hmem
  subst hsplit
  have hh : (headerEncode dek (pre ++ mulgen d_r :: post).length
      padding).length = HEADER_LEN := headerEncode_length hdek hrc hpad
  obtain ⟨hdrs, d1, hhdrs, hhlen⟩ := mres_headers_spec d_s d_e hh
    (pre ++ mulgen d_r :: post) hs he
    (absorb (absorb (newDuplex mresDomain) (encodePoint (mulgen d_s))) nonce)
  obtain ⟨hw, hl, -⟩ := encrypt_message_go_spec (m.length / BLOCK_LEN + 1) m
    (into_keyed (absorb (absorb_blocks d1 [padBytes]) dek)) (le_refl _)
  have hw2 : (encrypt_message
      (into_keyed (absorb (absorb_blocks d1 [padBytes]) dek)) m).2.1 =
      (encrypt_message
        (into_keyed (absorb (absorb_blocks d1 [padBytes]) dek)) m).1.length := hw
  have hsiglen : ((Schnorr.sign_protocol (encrypt_message
      (into_keyed (absorb (absorb_blocks d1 [padBytes]) dek)) m).2.2 k
      d_e).1).length = Schnorr.SIGNATURE_LEN :=
    Schnorr.sign_protocol_length _ k d_e
  have henc : mres_encrypt d_s d_e k dek nonce padBytes
      (pre ++ mulgen d_r :: post) padding m =
      some (nonce ++ hdrs ++ padBytes ++
          (encrypt_message (into_keyed (absorb (absorb_blocks d1 [padBytes]) dek)) m).1 ++
          (Schnorr.sign_protocol (encrypt_message
            (into_keyed (absorb (absorb_blocks d1 [padBytes]) dek)) m).2.2 k d_e).1,
        NONCE_LEN + (pre ++ mulgen d_r :: post).length * ENC_HEADER_LEN +
          padBytes.length +
          (encrypt_message (into_keyed (absorb (absorb_blocks d1 [padBytes]) dek)) m).2.1 +
          Schnorr.SIGNATURE_LEN) := by
    unfold mres_encrypt
    simp only []
    rw [hhdrs]
  refine ⟨_, _, henc, ?_, ?_⟩
  · simp only [List.length_append, hnonce, hhlen, hsiglen, hw2]
  · have hassoc : nonce ++ hdrs ++ padBytes ++
        (encrypt_message (into_keyed (absorb (absorb_blocks d1 [padBytes]) dek)) m).1 ++
        (Schnorr.sign_protocol (encrypt_message
          (into_keyed (absorb (absorb_blocks d1 [padBytes]) dek)) m).2.2 k d_e).1 =
        nonce ++ (hdrs ++ (padBytes ++
          ((encrypt_message (into_keyed (absorb (absorb_blocks d1 [padBytes]) dek)) m).1 ++
          (Schnorr.sign_protocol (encrypt_message
            (into_keyed (absorb (absorb_blocks d1 [padBytes]) dek)) m).2.2 k d_e).1))) := by
      simp [List.append_assoc]
    have hN16 : NONCE_LEN = 16 := rfl
    have hctlen : NONCE_LEN ≤ (nonce ++ hdrs ++ padBytes ++
        (encrypt_message (into_keyed (absorb (absorb_blocks d1 [padBytes]) dek)) m).1 ++
        (Schnorr.sign_protocol (encrypt_message
          (into_keyed (absorb (absorb_blocks d1 [padBytes]) dek)) m).2.2 k d_e).1).length := by
      simp only [List.length_append, hnonce]
      omega
    have htake : (nonce ++ hdrs ++ padBytes ++
        (encrypt_message (into_keyed (absorb (absorb_blocks d1 [padBytes]) dek)) m).1 ++
        (Schnorr.sign_protocol (encrypt_message
          (into_keyed (absorb (absorb_blocks d1 [padBytes]) dek)) m).2.2 k d_e).1).take
          NONCE_LEN = nonce := by
      rw [hassoc]
      conv_lhs => rw [← hnonce]
      exact List.take_left _ _
    have hdrop : (nonce ++ hdrs ++ padBytes ++
        (encrypt_message (into_keyed (absorb (absorb_blocks d1 [padBytes]) dek)) m).1 ++
        (Schnorr.sign_protocol (encrypt_message
          (into_keyed (absorb (absorb_blocks d1 [padBytes]) dek)) m).2.2 k d_e).1).drop
          NONCE_LEN = hdrs ++ (padBytes ++
          ((encrypt_message (into_keyed (absorb (absorb_blocks d1 [padBytes]) dek)) m).1 ++
          (Schnorr.sign_protocol (encrypt_message
            (into_keyed (absorb (absorb_blocks d1 [padBytes]) dek)) m).2.2 k d_e).1)) := by
      rw [hassoc]
      conv_lhs => rw [← hnonce]
      exact List.drop_left _ _
    have hd := decrypt_header_enc d_r d_s d_e dek padBytes
      ((encrypt_message (into_keyed (absorb (absorb_blocks d1 [padBytes]) dek)) m).1 ++
        (Schnorr.sign_protocol (encrypt_message
          (into_keyed (absorb (absorb_blocks d1 [padBytes]) dek)) m).2.2 k d_e).1)
      pre post padding hdek hprene hrc hpad hplen
      (hs (mulgen d_r) hmem) (he (mulgen d_r) hmem) hde
      (absorb (absorb (newDuplex mresDomain) (encodePoint (mulgen d_s))) nonce)
      d1 hdrs hhdrs
    have hdm : decrypt_message
        (into_keyed (absorb (absorb_blocks d1 [padBytes]) dek))
        ((encrypt_message (into_keyed (absorb (absorb_blocks d1 [padBytes]) dek)) m).1 ++
        (Schnorr.sign_protocol (encrypt_message
          (into_keyed (absorb (absorb_blocks d1 [padBytes]) dek)) m).2.2 k d_e).1) =
        Except.ok (m, m.length,
          (Schnorr.sign_protocol (encrypt_message
            (into_keyed (absorb (absorb_blocks d1 [padBytes]) dek)) m).2.2 k d_e).1,
          (encrypt_message (into_keyed (absorb (absorb_blocks d1 [padBytes]) dek)) m).2.2) := by
      unfold decrypt_message
      exact decrypt_message_go_enc m.length m (le_refl _)
        (into_keyed (absorb (absorb_blocks d1 [padBytes]) dek))
        (Schnorr.sign_protocol (encrypt_message
          (into_keyed (absorb (absorb_blocks d1 [padBytes]) dek)) m).2.2 k d_e).1
        [] _ _ hsiglen (by simp) (Or.inl rfl) (Nat.lt_succ_self _)
    have hred1 : mres_decrypt d_r (mulgen d_s)
        (nonce ++ hdrs ++ padBytes ++
          (encrypt_message (into_keyed (absorb (absorb_blocks d1 [padBytes]) dek)) m).1 ++
          (Schnorr.sign_protocol (encrypt_message
            (into_keyed (absorb (absorb_blocks d1 [padBytes]) dek)) m).2.2 k d_e).1) =
        match decrypt_message
            (into_keyed (absorb (absorb_blocks d1 [padBytes]) dek))
            ((encrypt_message (into_keyed (absorb (absorb_blocks d1 [padBytes]) dek)) m).1 ++
            (Schnorr.sign_protocol (encrypt_message
              (into_keyed (absorb (absorb_blocks d1 [padBytes]) dek)) m).2.2 k d_e).1) with
        | .error e => .error e
        | .ok (out, written, sg, m4) =>
          match (Schnorr.verify_protocol m4 (mulgen d_e) sg).1 with
          | none => .error DErr.invalidCiphertext
          | some _ => .ok (out, written) := by
      unfold mres_decrypt
      rw [if_neg (not_lt_of_ge hctlen)]
      simp only []
      rw [htake, hdrop, hd]
    rw [hred1, hdm]
    simp only [Schnorr.verify_protocol_sign_protocol]

end Mres

namespace Mres

/-- Witness for C1 at a singleton receiver list, empty message, and zero
padding. -/
theorem C1_witness :
    (List.replicate 32 0 : Bytes).length = DEK_LEN ∧
    (List.replicate 16 0 : Bytes).length = NONCE_LEN ∧
    mulgen 1 ∈ ([1] : List Point) ∧
    (∀ q ∈ ([1] : List Point), smul 1 q ≠ 0) ∧
    (1 : Scalar) ≠ 0 ∧
    (∃ ct written,
      mres_encrypt 1 1 1 (List.replicate 32 0) (List.replicate 16 0) []
        [1] 0 [] = some (ct, written) ∧
      ct.length = written ∧
      mres_decrypt 1 (mulgen 1) ct = Except.ok ([], 0)) := by
  have hmem : mulgen 1 ∈ ([1] : List Point) := List.mem_singleton.mpr rfl
  have hsq : ∀ q ∈ ([1] : List Point), smul 1 q ≠ 0 := by
    intro q hq
    rw [List.mem_singleton.mp hq]
    decide
  refine ⟨by decide, by decide, hmem, hsq, by decide, ?_⟩
  exact C1_mres_round_trip 1 1 1 1 (List.replicate 32 0) (List.replicate 16 0)
    [] [1] 0 [] (by decide) (by decide) (by decide) (by decide) (by decide)
    hmem hsq hsq (by decide)

end Mres
